import Mathlib

/-!
The package `pqueue`: a persistent FIFO queue backed by a directory.

A shallow embedding of `queue.go` (package `pqueue`) and of the parts of the Go
standard library it calls (`strconv.Itoa`, `strconv.Atoi`, `sort.Ints`, `os.ReadDir`,
`os.WriteFile`, `os.ReadFile`, `os.Remove`), followed by theorems about `New`,
`Enqueue` and `Dequeue`. The function `utf8.Valid` is embedded as well, to state what
`DequeueString` does with bytes that are not valid text.

Conventions of the embedding:

* a Go `string` and a Go `[]byte` are both sequences of bytes, `List UInt8`;
* the Go type `int` is taken at its 64 bit width: values are integers of
  `[-2^63, 2^63)`, and `q.current++` wraps around as Go arithmetic does;
* a Go result `(value, error)` is an `Except Err value`, a Go `error` result is an
  `Option Err`;
* the backing directory, the one at the path `q.dir`, is an explicit state `Dir`
  passed through every call, and `filepath.Join(q.dir, name)` addresses its entry
  `name`; the directory changes only through these calls;
* the mutex of `Queue` is not modelled (the calls are sequential).
-/

namespace PQueue

/-! ## Go strings, byte slices and the type `int` -/

/-- A Go `string`: an immutable sequence of bytes. -/
abbrev GoString := List UInt8

/-- A Go `[]byte`. -/
abbrev Bytes := List UInt8

/-- The conversion `[]byte(s)`: the bytes of the string. -/
def stringToBytes (s : GoString) : Bytes := s

/-- The conversion `string(b)`: the string holding exactly the bytes of `b`
(Go does not validate or change them). -/
def bytesToString (b : Bytes) : GoString := b

/-- The bytes of an ASCII literal, used to write file names and payloads. -/
def ascii (s : String) : GoString := s.toList.map (fun c => c.toNat.toUInt8)

/-- The largest value of the Go type `int` (64 bit): `math.MaxInt`. -/
def maxInt : Int := 9223372036854775807

/-- The smallest value of the Go type `int` (64 bit): `math.MinInt`. -/
def minInt : Int := -9223372036854775808

/-- The value of type `int` that Go arithmetic yields for the mathematical result `x`:
reduction modulo `2^64` into `[-2^63, 2^63)`. -/
def wrapInt (x : Int) : Int := (x + 9223372036854775808) % 18446744073709551616 - 9223372036854775808

/-! ## `strconv` -/

/-- The byte of the decimal digit `d`. -/
def digitByte (d : Nat) : UInt8 := (48 + d).toUInt8

/-- The decimal digits of `u`, most significant first, put in front of `acc`;
`fuel` bounds the number of digits written (`formatBits` writes into a buffer of 65
bytes, 20 are enough for every 64 bit value). -/
def formatBits : Nat → Nat → List UInt8 → List UInt8
  | 0, _, acc => acc
  | fuel + 1, u, acc =>
    if u < 10 then digitByte u :: acc
    else formatBits fuel (u / 10) (digitByte (u % 10) :: acc)

/-- The function `strconv.Itoa`: the decimal representation of `i`, with a leading `-`
for a negative value. -/
def Itoa (i : Int) : GoString :=
  if i < 0 then 45 :: formatBits 20 (-i).toNat [] else formatBits 20 i.toNat []

/-- The digit loop of `strconv.Atoi`: `ch -= '0'`, a syntax error (`none`) when
`ch > 9` in byte arithmetic, else `n = n*10 + int(ch)`. -/
def parseDigits : Nat → List UInt8 → Option Nat
  | n, [] => some n
  | n, ch :: rest =>
    if ch - 48 > 9 then none else parseDigits (n * 10 + (ch - 48).toNat) rest

/-- The function `strconv.Atoi`: an optional sign `+` or `-`, then at least one
decimal digit and nothing else; `none` stands for a returned error, which is a syntax
error or, for a value outside `[-2^63, 2^63)`, a range error. (The fast path for short
strings and `ParseInt(s, 10, 0)` agree on this; the digits are accumulated here
without overflow and the range is checked at the end.) -/
def Atoi (s : GoString) : Option Int :=
  match s with
  | [] => none
  | c :: rest =>
    let neg := c == 45
    let digits := if c == 45 ∨ c == 43 then rest else s
    match digits with
    | [] => none
    | _ :: _ =>
      match parseDigits 0 digits with
      | none => none
      | some n =>
        if neg then (if n ≤ 9223372036854775808 then some (-(n : Int)) else none)
        else (if n ≤ 9223372036854775807 then some (n : Int) else none)

/-! ## `sort` -/

/-- The function `sort.Ints`: the slice sorted in increasing order. -/
def sortInts (keys : List Int) : List Int := keys.insertionSort (· ≤ ·)

/-! ## The backing directory and the `os` calls -/

deriving instance DecidableEq for Except

/-- The errors a call can return: `ErrEmpty` of this package, and the errors of the
`os` calls, told apart by the call that failed. -/
inductive Err where
  | ErrEmpty
  | readDir
  | writeFile
  | readFile
  | remove
deriving DecidableEq, Repr

/-- An entry of the backing directory, a regular file: its contents and whether the
process may read it and may write it. (An entry of another kind, such as a
subdirectory, behaves in the calls below as a file that can neither be read nor
written.) -/
structure File where
  data : Bytes
  readable : Bool
  writable : Bool
deriving DecidableEq, Repr

/-- The state of the backing directory: whether it can be listed, whether entries
can be created in it and removed from it, the free space of its file system in
bytes, and its files by name. -/
structure Dir where
  listable : Bool
  writable : Bool
  free : Nat
  files : List (GoString × File)
deriving DecidableEq, Repr

/-- The file of the directory with the given name, if any. -/
def Dir.lookup (d : Dir) (name : GoString) : Option File :=
  (d.files.find? (fun e => e.1 == name)).map (fun e => e.2)

/-- The names of the directory's files. -/
def Dir.names (d : Dir) : List GoString := d.files.map (fun e => e.1)

/-- The directory without the file called `name`. -/
def Dir.erase (d : Dir) (name : GoString) : List (GoString × File) :=
  d.files.filter (fun e => !(e.1 == name))

/-- The order of file names in a listing: bytewise lexicographic. -/
def nameLe : GoString → GoString → Bool
  | [], _ => true
  | _ :: _, [] => false
  | a :: as, b :: bs => a < b || (a == b && nameLe as bs)

/-- The call `os.ReadDir`: the names of the directory's entries sorted by file name,
or an error when the directory cannot be listed. The directory is not changed. -/
def ReadDir (d : Dir) : Except Err (List GoString) × Dir :=
  if d.listable then (.ok (d.names.insertionSort (fun a b => nameLe a b = true)), d)
  else (.error .readDir, d)

/-- The call `os.ReadFile`: the contents of the named file, or an error when there
is no such file or it is not readable. The directory is not changed. -/
def ReadFile (d : Dir) (name : GoString) : Except Err Bytes × Dir :=
  match d.lookup name with
  | some f => if f.readable then (.ok f.data, d) else (.error .readFile, d)
  | none => (.error .readFile, d)

/-- The call `os.Remove` on a file: the file leaves the directory and its space is
freed, or an error (and no change) when there is no such file or entries cannot be
removed from the directory. -/
def Remove (d : Dir) (name : GoString) : Option Err × Dir :=
  match d.lookup name with
  | some f =>
    if d.writable then (none, { d with files := d.erase name, free := d.free + f.data.length })
    else (some .remove, d)
  | none => (some .remove, d)

/-- The write of `b` into the file called `name`, which is open and empty, with
`free` bytes left on the file system: all of `b` when it fits, else the bytes that
fit and an error. `files` are the other files of the directory. -/
def writeData (d : Dir) (name : GoString) (f : File) (files : List (GoString × File))
    (free : Nat) (b : Bytes) : Option Err × Dir :=
  if b.length ≤ free then
    (none, { d with files := files ++ [(name, { f with data := b })], free := free - b.length })
  else
    (some .writeFile, { d with files := files ++ [(name, { f with data := b.take free })], free := 0 })

/-- The call `os.WriteFile(name, b, 0600)`: opens the file with
`O_WRONLY|O_CREATE|O_TRUNC`, writes `b` and closes. A file that does not exist is
created with mode 0600 (owner may read and write), which fails when entries cannot
be created in the directory; an existing file is truncated and keeps its mode, which
fails when it is not writable. A failure of the write itself leaves the file with
the bytes written so far. -/
def WriteFile (d : Dir) (name : GoString) (b : Bytes) : Option Err × Dir :=
  match d.lookup name with
  | none =>
    if d.writable then
      writeData d name { data := [], readable := true, writable := true } d.files d.free b
    else (some .writeFile, d)
  | some f =>
    if f.writable then writeData d name f (d.erase name) (d.free + f.data.length) b
    else (some .writeFile, d)

/-! ## `queue.go` -/

/-- The type `Queue`: the backing directory's path, the ids of the pending entries,
and the counter `current` (the mutex is not modelled). -/
structure Queue where
  dir : GoString
  entries : List Int
  current : Int
deriving DecidableEq, Repr

/-- The loop of `readKeys` over the directory entries: the key of each name that
`strconv.Atoi` parses without error is appended to `keys`. -/
def collectKeys : List Int → List GoString → List Int
  | keys, [] => keys
  | keys, name :: entries =>
    match Atoi name with
    | some key => collectKeys (keys ++ [key]) entries
    | none => collectKeys keys entries

/-- The function `readKeys`: lists the directory, keeps the names that `strconv.Atoi`
parses, and sorts the keys. -/
def readKeys (d : Dir) : Except Err (List Int) × Dir :=
  match ReadDir d with
  | (.error err, d1) => (.error err, d1)
  | (.ok entries, d1) => (.ok (sortInts (collectKeys [] entries)), d1)

/-- The function `New`: the queue recovered from the backing directory. -/
def New (dir : GoString) (d : Dir) : Except Err Queue × Dir :=
  match readKeys d with
  | (.error err, d1) => (.error err, d1)
  | (.ok entries, d1) =>
    let current := match entries.getLast? with
      | some last => last
      | none => 0
    (.ok { dir := dir, entries := entries, current := current }, d1)

/-- The method `Enqueue`: increments the counter, writes the payload to the file
named by the counter, and on success appends the counter to the pending ids. -/
def Enqueue (q : Queue) (d : Dir) (b : Bytes) : Option Err × Queue × Dir :=
  let q1 := { q with current := wrapInt (q.current + 1) }
  let filename := Itoa q1.current
  match WriteFile d filename b with
  | (some err, d1) => (some err, q1, d1)
  | (none, d1) => (none, { q1 with entries := q1.entries ++ [q1.current] }, d1)

/-- The method `EnqueueString`. -/
def EnqueueString (q : Queue) (d : Dir) (s : GoString) : Option Err × Queue × Dir :=
  Enqueue q d (stringToBytes s)

/-- The method `Dequeue`: `ErrEmpty` when no id is pending, else reads the file named
by the first pending id, removes it, and drops the id. -/
def Dequeue (q : Queue) (d : Dir) : Except Err Bytes × Queue × Dir :=
  match q.entries with
  | [] => (.error .ErrEmpty, q, d)
  | first :: rest =>
    let filename := Itoa first
    match ReadFile d filename with
    | (.error err, d1) => (.error err, q, d1)
    | (.ok b, d1) =>
      match Remove d1 filename with
      | (some err, d2) => (.error err, q, d2)
      | (none, d2) => (.ok b, { q with entries := rest }, d2)

/-- The method `DequeueString`. -/
def DequeueString (q : Queue) (d : Dir) : Except Err GoString × Queue × Dir :=
  match Dequeue q d with
  | (.error err, q1, d1) => (.error err, q1, d1)
  | (.ok b, q1, d1) => (.ok (bytesToString b), q1, d1)

/-! ## Runs of calls -/

/-- The calls `Enqueue(p)` for the payloads of `ps`, one after the other: the errors
they return, and the final state. -/
def enqueueAll : List Bytes → Queue → Dir → List (Option Err) × Queue × Dir
  | [], q, d => ([], q, d)
  | p :: ps, q, d =>
    let r := Enqueue q d p
    let rs := enqueueAll ps r.2.1 r.2.2
    (r.1 :: rs.1, rs.2)

/-- The number `n` of calls `Dequeue()`, one after the other: the results they return,
and the final state. -/
def dequeueN : Nat → Queue → Dir → List (Except Err Bytes) × Queue × Dir
  | 0, q, d => ([], q, d)
  | n + 1, q, d =>
    let r := Dequeue q d
    let rs := dequeueN n r.2.1 r.2.2
    (r.1 :: rs.1, rs.2)

/-- A call on a queue. -/
inductive Call where
  | enqueue (b : Bytes)
  | dequeue
deriving DecidableEq, Repr

/-- The state after one call, its result dropped. -/
def step (q : Queue) (d : Dir) : Call → Queue × Dir
  | .enqueue b => (Enqueue q d b).2
  | .dequeue => (Dequeue q d).2

/-- The state after a sequence of calls. -/
def run : List Call → Queue → Dir → Queue × Dir
  | [], q, d => (q, d)
  | c :: cs, q, d => run cs (step q d c).1 (step q d c).2

/-- The number of `Enqueue` calls of a sequence of calls. -/
def enqueueCount : List Call → Nat
  | [] => 0
  | .enqueue _ :: cs => enqueueCount cs + 1
  | .dequeue :: cs => enqueueCount cs

/-- Whether every `Enqueue` of the run that fails leaves the directory as it was
(no file is left behind by a failed write). -/
def cleanRun : List Call → Queue → Dir → Bool
  | [], _, _ => true
  | .enqueue b :: cs, q, d =>
    ((Enqueue q d b).1 == none || (Enqueue q d b).2.2 == d)
      && cleanRun cs (Enqueue q d b).2.1 (Enqueue q d b).2.2
  | .dequeue :: cs, q, d => cleanRun cs (Dequeue q d).2.1 (Dequeue q d).2.2

/-- Whether the file operations of every call of the run succeed: every `Enqueue`
returns no error, and every `Dequeue` returns a payload or `ErrEmpty`. -/
def succeeds : List Call → Queue → Dir → Bool
  | [], _, _ => true
  | .enqueue b :: cs, q, d =>
    (Enqueue q d b).1 == none && succeeds cs (Enqueue q d b).2.1 (Enqueue q d b).2.2
  | .dequeue :: cs, q, d =>
    (match (Dequeue q d).1 with
      | .ok _ => true
      | .error err => err == .ErrEmpty)
      && succeeds cs (Dequeue q d).2.1 (Dequeue q d).2.2

/-- The ids assigned to entries during a run of calls: the counter after each `Enqueue`
call that succeeds, in the order of the calls. -/
def assignedIds : List Call → Queue → Dir → List Int
  | [], _, _ => []
  | .enqueue b :: cs, q, d =>
    if (Enqueue q d b).1 = none then
      (Enqueue q d b).2.1.current :: assignedIds cs (Enqueue q d b).2.1 (Enqueue q d b).2.2
    else assignedIds cs (Enqueue q d b).2.1 (Enqueue q d b).2.2
  | .dequeue :: cs, q, d => assignedIds cs (Dequeue q d).2.1 (Dequeue q d).2.2

/-- The payloads enqueued during a run: those of the `Enqueue` calls that succeed, in
the order of the calls. -/
def enqueuedPayloads : List Call → Queue → Dir → List Bytes
  | [], _, _ => []
  | .enqueue b :: cs, q, d =>
    if (Enqueue q d b).1 = none then
      b :: enqueuedPayloads cs (Enqueue q d b).2.1 (Enqueue q d b).2.2
    else enqueuedPayloads cs (Enqueue q d b).2.1 (Enqueue q d b).2.2
  | .dequeue :: cs, q, d => enqueuedPayloads cs (Dequeue q d).2.1 (Dequeue q d).2.2

/-- The payloads dequeued during a run: those returned by the `Dequeue` calls, in the
order of the calls. -/
def dequeuedPayloads : List Call → Queue → Dir → List Bytes
  | [], _, _ => []
  | .enqueue b :: cs, q, d => dequeuedPayloads cs (Enqueue q d b).2.1 (Enqueue q d b).2.2
  | .dequeue :: cs, q, d =>
    match (Dequeue q d).1 with
    | .ok b => b :: dequeuedPayloads cs (Dequeue q d).2.1 (Dequeue q d).2.2
    | .error _ => dequeuedPayloads cs (Dequeue q d).2.1 (Dequeue q d).2.2

/-! ## Relations between a queue and its directory -/

/-- The contents of the directory's files, in the directory's order. -/
def Dir.payloads (d : Dir) : List Bytes := d.files.map (fun e => e.2.data)

/-- The state of a queue that owns its directory since it was opened over the empty
directory: the files are exactly the pending entries, in order, under the names of
their ids, the ids are positive, increasing and at most the counter, the files are
readable, and the directory allows removals once a file was created in it. -/
structure Synced (q : Queue) (d : Dir) : Prop where
  names : d.names = q.entries.map Itoa
  readable : ∀ e ∈ d.files, e.2.readable = true
  increasing : q.entries.Pairwise (· < ·)
  positive : ∀ id ∈ q.entries, 0 < id
  bounded : ∀ id ∈ q.entries, id ≤ q.current
  counter : 0 ≤ q.current
  removable : q.entries ≠ [] → d.writable = true

/-- Every integer that `strconv.Atoi` parses from a file name of the directory is at
most the counter: the relation that `New` sets up between the queue and its directory,
kept by `Enqueue` and `Dequeue` while the counter stays in the range of `int`. -/
def Covers (q : Queue) (d : Dir) : Prop :=
  ∀ name ∈ d.names, ∀ k : Int, Atoi name = some k → k ≤ q.current

/-! ## The abstract FIFO queue -/

/-- The abstract queue: the list of the pending payloads, oldest first. -/
abbrev AbstractQueue := List Bytes

/-- The abstract operation enqueue: the payload is appended to the list. -/
def abstractEnqueue (l : AbstractQueue) (p : Bytes) : AbstractQueue := l ++ [p]

/-- The abstract operation dequeue: the empty condition on the empty list, else the
head of the list is returned and removed. -/
def abstractDequeue : AbstractQueue → Except Err Bytes × AbstractQueue
  | [] => (.error .ErrEmpty, [])
  | p :: rest => (.ok p, rest)

/-- The abstract queue after a sequence of calls. -/
def abstractRun : List Call → AbstractQueue → AbstractQueue
  | [], l => l
  | .enqueue p :: cs, l => abstractRun cs (abstractEnqueue l p)
  | .dequeue :: cs, l => abstractRun cs (abstractDequeue l).2

/-- The abstract queue that a state of the queue stands for: the contents of the files
named by the pending ids, in the order of the list. -/
def abstraction (q : Queue) (d : Dir) : AbstractQueue :=
  q.entries.filterMap (fun id => (d.lookup (Itoa id)).map (fun f => f.data))

/-! ## `unicode/utf8` -/

/-- Whether a byte is a continuation byte of UTF-8, `10xxxxxx`. -/
def isCont (b : UInt8) : Bool := 128 ≤ b && b ≤ 191

/-- For the first byte of a multi-byte UTF-8 sequence: the accepted range of the second
byte and the number of continuation bytes after the second (the table `first` and the
`acceptRanges` of the package `unicode/utf8`); `none` for a byte that starts no such
sequence. -/
def utf8Lead (b0 : UInt8) : Option (UInt8 × UInt8 × Nat) :=
  if 194 ≤ b0 ∧ b0 ≤ 223 then some (128, 191, 0)
  else if b0 = 224 then some (160, 191, 1)
  else if 225 ≤ b0 ∧ b0 ≤ 236 then some (128, 191, 1)
  else if b0 = 237 then some (128, 159, 1)
  else if 238 ≤ b0 ∧ b0 ≤ 239 then some (128, 191, 1)
  else if b0 = 240 then some (144, 191, 2)
  else if 241 ≤ b0 ∧ b0 ≤ 243 then some (128, 191, 2)
  else if b0 = 244 then some (128, 143, 2)
  else none

/-- The rest of the bytes after `n` continuation bytes, `none` when they are not there. -/
def dropCont : Nat → List UInt8 → Option (List UInt8)
  | 0, bs => some bs
  | _ + 1, [] => none
  | n + 1, b :: bs => if isCont b then dropCont n bs else none

/-- The validation loop of `utf8.Valid`, with `fuel` at least the number of bytes. -/
def validUTF8Fuel : Nat → List UInt8 → Bool
  | _, [] => true
  | 0, _ :: _ => false
  | fuel + 1, b0 :: rest =>
    if b0 < 128 then validUTF8Fuel fuel rest
    else
      match utf8Lead b0, rest with
      | some (lo, hi, n), b1 :: rest1 =>
        if lo ≤ b1 ∧ b1 ≤ hi then
          match dropCont n rest1 with
          | some rest2 => validUTF8Fuel fuel rest2
          | none => false
        else false
      | _, _ => false

/-- The function `utf8.Valid` of the Go standard library: whether the bytes are
entirely valid UTF-8 encoded text. -/
def validUTF8 (b : Bytes) : Bool := validUTF8Fuel b.length b

/-! ## Example directories -/

/-- An empty directory that can be listed and written, on a file system with `free`
bytes left. -/
def emptyDir (free : Nat) : Dir :=
  { listable := true, writable := true, free := free, files := [] }

/-- A directory holding two entries, named 7 and 3. -/
def dirThreeSeven : Dir :=
  { listable := true, writable := true, free := 64,
    files := [(ascii "7", ⟨ascii "g", true, true⟩), (ascii "3", ⟨ascii "c", true, true⟩)] }

/-- A directory that can be listed but not written, holding the files `README`, `-`,
`12a` and `5`. -/
def readOnlyDir : Dir :=
  { listable := true, writable := false, free := 64,
    files := [(ascii "README", ⟨ascii "notes", true, false⟩), (ascii "-", ⟨[], true, false⟩),
              (ascii "12a", ⟨[], true, false⟩), (ascii "5", ⟨ascii "e", true, false⟩)] }

/-- A directory holding the file `README` alongside the entries 1 and 2. -/
def dirReadme : Dir :=
  { listable := true, writable := true, free := 64,
    files := [(ascii "1", ⟨ascii "a", true, true⟩), (ascii "README", ⟨ascii "notes", true, true⟩),
              (ascii "2", ⟨ascii "b", true, true⟩)] }

/-- A directory holding one entry, named -5. -/
def dirMinusFive : Dir :=
  { listable := true, writable := true, free := 64,
    files := [(ascii "-5", ⟨ascii "e", true, true⟩)] }

/-- A directory holding two files whose names parse to the same integer: `7` and `07`. -/
def dirSevenTwice : Dir :=
  { listable := true, writable := true, free := 64,
    files := [(ascii "7", ⟨ascii "g", true, true⟩), (ascii "07", ⟨ascii "h", true, true⟩)] }

/-- A directory holding one entry, named by the largest `int`. -/
def dirMaxInt : Dir :=
  { listable := true, writable := true, free := 64,
    files := [(ascii "9223372036854775807", ⟨ascii "old", true, true⟩)] }

/-- A directory holding two entries, named by the smallest and by the largest `int`. -/
def dirMinMax : Dir :=
  { listable := true, writable := true, free := 64,
    files := [(ascii "-9223372036854775808", ⟨ascii "first", true, true⟩),
              (ascii "9223372036854775807", ⟨ascii "second", true, true⟩)] }

/-! ## Lemmas on `strconv` -/

theorem digitByte_spec : ∀ d : Nat, d < 10 →
    ¬ (digitByte d - 48 > 9) ∧ (digitByte d - 48).toNat = d := by
  decide

theorem formatBits_append (fuel u : Nat) (acc : List UInt8) :
    formatBits fuel u acc = formatBits fuel u [] ++ acc := by
  induction fuel generalizing u acc with
  | zero => simp [formatBits]
  | succ fuel ih =>
    unfold formatBits
    split
    · simp
    · rw [ih (u / 10) (digitByte (u % 10) :: acc), ih (u / 10) [digitByte (u % 10)]]
      simp

theorem parseDigits_append (n : Nat) (xs ys : List UInt8) :
    parseDigits n (xs ++ ys) = (parseDigits n xs).bind (fun v => parseDigits v ys) := by
  induction xs generalizing n with
  | nil => simp [parseDigits]
  | cons c xs ih =>
    simp only [List.cons_append, parseDigits]
    split
    · rfl
    · exact ih _

theorem parseDigits_formatBits (fuel u : Nat) (h : u < 10 ^ fuel) :
    parseDigits 0 (formatBits fuel u []) = some u := by
  induction fuel generalizing u with
  | zero =>
    have : u = 0 := by simpa using h
    simp [formatBits, parseDigits, this]
  | succ fuel ih =>
    unfold formatBits
    split
    · rename_i hu
      have := digitByte_spec u hu
      simp [parseDigits, this.1, this.2]
    · have hd := digitByte_spec (u % 10) (Nat.mod_lt _ (by decide))
      have hq : u / 10 < 10 ^ fuel := by
        rw [Nat.div_lt_iff_lt_mul (by decide)]
        rw [pow_succ] at h
        exact h
      rw [formatBits_append, parseDigits_append, ih _ hq]
      simp [parseDigits, hd.1, hd.2]
      omega

theorem parseDigits_head {n : Nat} {c : UInt8} {rest : List UInt8} {v : Nat}
    (h : parseDigits n (c :: rest) = some v) : ¬ (c - 48 > 9) := by
  unfold parseDigits at h
  intro hc
  simp [hc] at h

theorem formatBits_ne_nil (fuel u : Nat) : formatBits (fuel + 1) u [] ≠ [] := by
  unfold formatBits
  split
  · simp
  · rw [formatBits_append]; simp

theorem Atoi_formatBits (u : Nat) (h : u ≤ 9223372036854775807) :
    Atoi (formatBits 20 u []) = some (u : Int) := by
  have hp : parseDigits 0 (formatBits 20 u []) = some u :=
    parseDigits_formatBits 20 u (by omega)
  have hne := formatBits_ne_nil 19 u
  cases hl : formatBits 20 u [] with
  | nil => exact absurd hl hne
  | cons c rest =>
    rw [hl] at hp
    have hc := parseDigits_head hp
    have h45 : (c == 45) = false := by
      rw [beq_eq_false_iff_ne]; rintro rfl; exact hc (by decide)
    have h43 : (c == 43) = false := by
      rw [beq_eq_false_iff_ne]; rintro rfl; exact hc (by decide)
    simp [Atoi, h45, h43, hp, h]

theorem Atoi_Itoa (i : Int) (hlo : minInt ≤ i) (hhi : i ≤ maxInt) : Atoi (Itoa i) = some i := by
  unfold minInt at hlo
  unfold maxInt at hhi
  unfold Itoa
  split
  · rename_i hneg
    have hp : parseDigits 0 (formatBits 20 (-i).toNat []) = some (-i).toNat :=
      parseDigits_formatBits 20 _ (by omega)
    have hne := formatBits_ne_nil 19 (-i).toNat
    cases hl : formatBits 20 (-i).toNat [] with
    | nil => exact absurd hl hne
    | cons c rest =>
      rw [hl] at hp
      have hb : (-i).toNat ≤ 9223372036854775808 := by omega
      simp [Atoi, hp, hb]
      omega
  · rename_i hneg
    rw [Atoi_formatBits _ (by omega)]
    simp; omega

theorem Itoa_inj {i j : Int} (hi : minInt ≤ i ∧ i ≤ maxInt) (hj : minInt ≤ j ∧ j ≤ maxInt)
    (h : Itoa i = Itoa j) : i = j := by
  have h1 := Atoi_Itoa i hi.1 hi.2
  rw [h, Atoi_Itoa j hj.1 hj.2] at h1
  exact (Option.some.inj h1).symm

theorem wrapInt_of_range {x : Int} (hlo : minInt ≤ x) (hhi : x ≤ maxInt) : wrapInt x = x := by
  unfold minInt at hlo
  unfold maxInt at hhi
  unfold wrapInt
  omega

/-! ## Lemmas on the directory -/

theorem lookup_eq_none_iff (d : Dir) (name : GoString) :
    d.lookup name = none ↔ name ∉ d.names := by
  unfold Dir.lookup Dir.names
  simp [List.find?_eq_none]
  constructor
  · intro h f hf; exact h _ _ hf rfl
  · intro h a f hf ha; subst ha; exact h f hf

theorem find_filter_ne (l : List (GoString × File)) (name other : GoString) (h : other ≠ name) :
    (l.filter (fun e => !(e.1 == name))).find? (fun e => e.1 == other)
      = l.find? (fun e => e.1 == other) := by
  induction l with
  | nil => rfl
  | cons e l ih =>
    by_cases he : e.1 = name
    · have hne : (e.1 == other) = false := by
        rw [beq_eq_false_iff_ne, he]; exact fun h' => h h'.symm
      have hf : (!(e.1 == name)) = false := by simp [he]
      rw [List.filter_cons_of_neg (by simp [he]), List.find?_cons_of_neg _ (by simp [hne]), ih]
    · rw [List.filter_cons_of_pos (by simp [he])]
      by_cases ho : e.1 = other
      · rw [List.find?_cons_of_pos _ (by simp [ho]), List.find?_cons_of_pos _ (by simp [ho])]
      · rw [List.find?_cons_of_neg _ (by simp [ho]), List.find?_cons_of_neg _ (by simp [ho]), ih]

theorem lookup_erase_ne (d : Dir) (name other : GoString) (h : other ≠ name) (w : Bool) (n : Nat) :
    ({ listable := d.listable, writable := w, free := n, files := d.erase name } : Dir).lookup other
      = d.lookup other := by
  unfold Dir.lookup Dir.erase
  simp only
  rw [find_filter_ne _ _ _ h]

/-! ## Lemmas on queues that own their directory -/

theorem Synced.inRange {q : Queue} {d : Dir} (h : Synced q d) (hc : q.current ≤ maxInt)
    {id : Int} (hid : id ∈ q.entries) : minInt ≤ id ∧ id ≤ maxInt := by
  have h1 := h.positive id hid
  have h2 := h.bounded id hid
  unfold minInt
  omega

theorem Synced.fresh {q : Queue} {d : Dir} (h : Synced q d) (hc : q.current < maxInt) :
    d.lookup (Itoa (q.current + 1)) = none := by
  rw [lookup_eq_none_iff, h.names]
  intro hmem
  obtain ⟨id, hid, heq⟩ := List.mem_map.1 hmem
  have hr := h.inRange (le_of_lt hc) hid
  have hcur := h.counter
  have : id = q.current + 1 := Itoa_inj hr ⟨by unfold minInt; omega, by omega⟩ heq
  have := h.bounded id hid
  omega

theorem Enqueue_fresh_ok {q : Queue} {d : Dir} {b : Bytes}
    (hf : d.lookup (Itoa (wrapInt (q.current + 1))) = none) (hok : (Enqueue q d b).1 = none) :
    d.writable = true ∧ b.length ≤ d.free ∧
    Enqueue q d b = (none,
      { q with entries := q.entries ++ [wrapInt (q.current + 1)],
               current := wrapInt (q.current + 1) },
      { d with files := d.files ++ [(Itoa (wrapInt (q.current + 1)),
                  { data := b, readable := true, writable := true })],
               free := d.free - b.length }) := by
  unfold Enqueue WriteFile writeData at hok ⊢
  simp only [hf] at hok ⊢
  by_cases hw : d.writable = true
  · by_cases hb : b.length ≤ d.free
    · simp [hw, hb]
    · simp [hw, hb] at hok
  · simp [hw] at hok

theorem Enqueue_fresh_fail {q : Queue} {d : Dir} {b : Bytes} {err : Err}
    (hf : d.lookup (Itoa (wrapInt (q.current + 1))) = none)
    (herr : (Enqueue q d b).1 = some err) :
    (Enqueue q d b).2.1 = { q with current := wrapInt (q.current + 1) } ∧
    ((Enqueue q d b).2.2 = d ∨
      (Enqueue q d b).2.2.files = d.files ++ [(Itoa (wrapInt (q.current + 1)),
        { data := b.take d.free, readable := true, writable := true })]) := by
  unfold Enqueue WriteFile writeData at herr ⊢
  simp only [hf] at herr ⊢
  by_cases hw : d.writable = true
  · by_cases hb : b.length ≤ d.free
    · simp [hw, hb] at herr
    · simp [hw, hb]
  · simp [hw]

theorem Synced.enqueue_ok {q : Queue} {d : Dir} {b : Bytes} (h : Synced q d)
    (hc : q.current < maxInt) (hok : (Enqueue q d b).1 = none) :
    Synced (Enqueue q d b).2.1 (Enqueue q d b).2.2 ∧
    (Enqueue q d b).2.2.payloads = d.payloads ++ [b] ∧
    (Enqueue q d b).2.2.listable = d.listable ∧
    (Enqueue q d b).2.1.current = q.current + 1 ∧
    (Enqueue q d b).2.1.dir = q.dir := by
  have hcur := h.counter
  have hw : wrapInt (q.current + 1) = q.current + 1 :=
    wrapInt_of_range (by unfold minInt; omega) (by omega)
  have hf := h.fresh hc
  rw [← hw] at hf
  obtain ⟨hdw, -, heq⟩ := Enqueue_fresh_ok hf hok
  rw [heq, hw]
  refine ⟨⟨?_, ?_, ?_, ?_, ?_, ?_, ?_⟩, ?_, rfl, rfl, rfl⟩
  · simp [Dir.names, ← h.names]
  · intro e he
    simp only [List.mem_append, List.mem_singleton] at he
    rcases he with he | rfl
    · exact h.readable e he
    · rfl
  · simp only [List.pairwise_append, List.pairwise_cons, List.mem_singleton]
    refine ⟨h.increasing, ⟨by simp, List.Pairwise.nil⟩, ?_⟩
    intro a ha c hc'
    subst hc'
    have := h.bounded a ha
    omega
  · intro id hid
    simp only [List.mem_append, List.mem_singleton] at hid
    rcases hid with hid | rfl
    · exact h.positive id hid
    · omega
  · intro id hid
    simp only [List.mem_append, List.mem_singleton] at hid
    rcases hid with hid | rfl
    · have := h.bounded id hid
      show id ≤ q.current + 1
      omega
    · exact le_refl _
  · show 0 ≤ q.current + 1
    omega
  · intro _
    exact hdw
  · simp [Dir.payloads]

theorem Synced.enqueue_fail {q : Queue} {d : Dir} {b : Bytes} {err : Err} (h : Synced q d)
    (hc : q.current < maxInt) (herr : (Enqueue q d b).1 = some err) :
    Synced (Enqueue q d b).2.1 d ∧ (Enqueue q d b).2.1.entries = q.entries ∧
    (Enqueue q d b).2.1.current = q.current + 1 := by
  have hcur := h.counter
  have hw : wrapInt (q.current + 1) = q.current + 1 :=
    wrapInt_of_range (by unfold minInt; omega) (by omega)
  have hf := h.fresh hc
  rw [← hw] at hf
  obtain ⟨hq, -⟩ := Enqueue_fresh_fail hf herr
  rw [hq, hw]
  refine ⟨⟨h.names, h.readable, h.increasing, h.positive, ?_, ?_, h.removable⟩, rfl, rfl⟩
  · intro id hid
    have := h.bounded id hid
    show id ≤ q.current + 1
    omega
  · show 0 ≤ q.current + 1
    omega

theorem Synced.dequeue_nil {q : Queue} {d : Dir} (h : Synced q d) (he : q.entries = []) :
    d.files = [] ∧ Dequeue q d = (.error .ErrEmpty, q, d) := by
  constructor
  · have := h.names
    rw [he] at this
    simpa [Dir.names] using this
  · unfold Dequeue
    rw [he]

theorem Synced.dequeue_cons {q : Queue} {d : Dir} (h : Synced q d) (hc : q.current ≤ maxInt)
    {id : Int} {rest : List Int} (he : q.entries = id :: rest) :
    ∃ f fs, d.files = (Itoa id, f) :: fs ∧
      Dequeue q d = (.ok f.data, { q with entries := rest },
        { d with files := fs, free := d.free + f.data.length }) ∧
      Synced { q with entries := rest } { d with files := fs, free := d.free + f.data.length } := by
  have hn := h.names
  rw [he] at hn
  unfold Dir.names at hn
  cases hfs : d.files with
  | nil => rw [hfs] at hn; simp at hn
  | cons e fs =>
    rw [hfs] at hn
    simp only [List.map_cons, List.cons.injEq] at hn
    obtain ⟨hname, hrest⟩ := hn
    obtain ⟨name, f⟩ := e
    simp only at hname
    subst hname
    have hinc := h.increasing
    rw [he] at hinc
    have hidr : minInt ≤ id ∧ id ≤ maxInt := h.inRange hc (by rw [he]; simp)
    have hnot : Itoa id ∉ fs.map (fun e => e.1) := by
      rw [hrest]
      intro hmem
      obtain ⟨j, hj, hjeq⟩ := List.mem_map.1 hmem
      have hjr : minInt ≤ j ∧ j ≤ maxInt := h.inRange hc (by rw [he]; simp [hj])
      have : j = id := Itoa_inj hjr hidr hjeq
      have := (List.pairwise_cons.1 hinc).1 j hj
      omega
    have hlook : d.lookup (Itoa id) = some f := by
      unfold Dir.lookup
      rw [hfs]
      simp
    have hread : f.readable = true := h.readable (Itoa id, f) (by rw [hfs]; simp)
    have hwr : d.writable = true := h.removable (by rw [he]; simp)
    have herase : d.erase (Itoa id) = fs := by
      unfold Dir.erase
      rw [hfs, List.filter_cons_of_neg (by simp), List.filter_eq_self]
      intro e' he'
      simp only [Bool.not_eq_eq_eq_not, Bool.not_true, beq_eq_false_iff_ne, ne_eq]
      intro heq
      exact hnot (heq ▸ List.mem_map_of_mem _ he')
    refine ⟨f, fs, rfl, ?_, ?_⟩
    · unfold Dequeue
      rw [he]
      simp [ReadFile, Remove, hlook, hread, hwr, herase]
    · refine ⟨?_, ?_, ?_, ?_, ?_, h.counter, ?_⟩
      · simp [Dir.names, hrest]
      · intro e' he'
        exact h.readable e' (by rw [hfs]; exact List.mem_cons_of_mem _ he')
      · exact (List.pairwise_cons.1 hinc).2
      · intro j hj
        exact h.positive j (by rw [he]; exact List.mem_cons_of_mem _ hj)
      · intro j hj
        exact h.bounded j (by rw [he]; exact List.mem_cons_of_mem _ hj)
      · intro _
        exact hwr

/-! ## Lemmas on `readKeys` and `New` -/

theorem sortInts_sorted (l : List Int) : (sortInts l).Sorted (· ≤ ·) :=
  List.sorted_insertionSort _ l

theorem sortInts_perm (l : List Int) : (sortInts l).Perm l :=
  List.perm_insertionSort _ l

theorem sortInts_congr {l₁ l₂ : List Int} (h : l₁.Perm l₂) : sortInts l₁ = sortInts l₂ :=
  List.eq_of_perm_of_sorted
    (((sortInts_perm l₁).trans h).trans (sortInts_perm l₂).symm)
    (sortInts_sorted l₁) (sortInts_sorted l₂)

theorem sortInts_of_sorted {l : List Int} (h : l.Sorted (· ≤ ·)) : sortInts l = l :=
  List.eq_of_perm_of_sorted (sortInts_perm l) (sortInts_sorted l) h

theorem collectKeys_eq (names : List GoString) (keys : List Int) :
    collectKeys keys names = keys ++ names.filterMap Atoi := by
  induction names generalizing keys with
  | nil => simp [collectKeys]
  | cons name names ih =>
    simp only [collectKeys, List.filterMap_cons]
    cases h : Atoi name with
    | none => exact ih keys
    | some key => simp only [ih]; simp

theorem readKeys_listable {d : Dir} (h : d.listable = true) :
    readKeys d = (.ok (sortInts (d.names.filterMap Atoi)), d) := by
  unfold readKeys ReadDir
  simp only [h, if_true]
  rw [collectKeys_eq, List.nil_append]
  congr 2
  exact sortInts_congr ((List.perm_insertionSort _ d.names).filterMap _)

theorem readKeys_not_listable {d : Dir} (h : d.listable = false) :
    readKeys d = (.error .readDir, d) := by
  unfold readKeys ReadDir
  simp [h]

theorem New_listable (dir : GoString) {d : Dir} (h : d.listable = true) :
    New dir d = (.ok { dir := dir, entries := sortInts (d.names.filterMap Atoi),
                       current := ((sortInts (d.names.filterMap Atoi)).getLast?).getD 0 }, d) := by
  unfold New
  rw [readKeys_listable h]
  simp only
  cases (sortInts (d.names.filterMap Atoi)).getLast? <;> rfl

theorem New_not_listable (dir : GoString) {d : Dir} (h : d.listable = false) :
    New dir d = (.error .readDir, d) := by
  unfold New
  rw [readKeys_not_listable h]

theorem filterMap_Atoi_Itoa (ids : List Int) (h : ∀ id ∈ ids, minInt ≤ id ∧ id ≤ maxInt) :
    (ids.map Itoa).filterMap Atoi = ids := by
  induction ids with
  | nil => rfl
  | cons id ids ih =>
    have hid := h id (by simp)
    simp only [List.map_cons, List.filterMap_cons, Atoi_Itoa id hid.1 hid.2]
    rw [ih (fun j hj => h j (List.mem_cons_of_mem _ hj))]

theorem getLast_le_of_sorted {l : List Int} (h : l.Sorted (· ≤ ·)) {last : Int}
    (hl : l.getLast? = some last) : ∀ k ∈ l, k ≤ last := by
  intro k hk
  obtain ⟨init, rfl⟩ : ∃ init, l = init ++ [last] := by
    rcases List.eq_nil_or_concat l with rfl | ⟨init, x, rfl⟩
    · simp at hl
    · simp at hl; subst hl; exact ⟨init, by simp⟩
  simp only [List.mem_append, List.mem_singleton] at hk
  rcases hk with hk | rfl
  · exact (List.pairwise_append.1 h).2.2 k hk last (by simp)
  · exact le_refl _

theorem Synced.recover {q : Queue} {d : Dir} (h : Synced q d) (hc : q.current ≤ maxInt)
    (hl : d.listable = true) (dir : GoString) :
    ∃ q2, New dir d = (.ok q2, d) ∧ q2.entries = q.entries ∧ q2.dir = dir ∧ Synced q2 d ∧
      q2.current ≤ maxInt := by
  have hkeys : sortInts (d.names.filterMap Atoi) = q.entries := by
    rw [h.names, filterMap_Atoi_Itoa _ (fun id hid => h.inRange hc hid)]
    exact sortInts_of_sorted (h.increasing.imp (fun hab => le_of_lt hab))
  refine ⟨_, New_listable dir hl, hkeys, rfl, ?_, ?_⟩
  · refine ⟨by rw [hkeys]; exact h.names, h.readable, by rw [hkeys]; exact h.increasing,
      by rw [hkeys]; exact h.positive, ?_, ?_, by rw [hkeys]; exact h.removable⟩
    · simp only [hkeys]
      intro id hid
      cases hlast : q.entries.getLast? with
      | none => rw [List.getLast?_eq_none_iff] at hlast; rw [hlast] at hid; simp at hid
      | some last =>
        exact getLast_le_of_sorted (h.increasing.imp (fun hab => le_of_lt hab)) hlast id hid
    · simp only [hkeys]
      cases hlast : q.entries.getLast? with
      | none => simp
      | some last =>
        have := h.positive last (List.mem_of_getLast?_eq_some hlast)
        simp; omega
  · simp only [hkeys]
    cases hlast : q.entries.getLast? with
    | none => simp [maxInt]
    | some last =>
      have := h.bounded last (List.mem_of_getLast?_eq_some hlast)
      simp; omega

/-! ## Lemmas on runs of calls -/

theorem Synced.drain {q : Queue} {d : Dir} (h : Synced q d) (hc : q.current ≤ maxInt) :
    (dequeueN (q.entries.length + 1) q d).1 = d.payloads.map .ok ++ [.error .ErrEmpty] := by
  generalize hn : q.entries.length = n
  induction n generalizing q d with
  | zero =>
    have he : q.entries = [] := List.length_eq_zero.1 hn
    obtain ⟨hfiles, hdeq⟩ := h.dequeue_nil he
    simp [dequeueN, hdeq, Dir.payloads, hfiles]
  | succ n ih =>
    cases he : q.entries with
    | nil => rw [he] at hn; simp at hn
    | cons id rest =>
      obtain ⟨f, fs, hfiles, hdeq, hsync⟩ := h.dequeue_cons hc he
      have hlen : rest.length = n := by rw [he] at hn; simpa using hn
      have := ih hsync hc hlen
      rw [dequeueN, hdeq]
      simp only [this, Dir.payloads, hfiles]
      simp

theorem Synced.enqueueAll {ps : List Bytes} {q : Queue} {d : Dir} (h : Synced q d)
    (hc : q.current + ps.length ≤ maxInt)
    (hok : ∀ r ∈ (enqueueAll ps q d).1, r = none) :
    Synced (enqueueAll ps q d).2.1 (enqueueAll ps q d).2.2 ∧
    (enqueueAll ps q d).2.2.payloads = d.payloads ++ ps ∧
    (enqueueAll ps q d).2.2.listable = d.listable ∧
    (enqueueAll ps q d).2.1.current = q.current + ps.length ∧
    (enqueueAll ps q d).2.1.dir = q.dir := by
  induction ps generalizing q d with
  | nil => simp [PQueue.enqueueAll, h]
  | cons p ps ih =>
    simp only [PQueue.enqueueAll, List.mem_cons, forall_eq_or_imp] at hok ⊢
    simp only [List.length_cons, Nat.cast_add, Nat.cast_one] at hc ⊢
    have hcur := h.counter
    obtain ⟨hs, hp, hl, hcur', hdir⟩ := h.enqueue_ok (by omega) hok.1
    obtain ⟨hs2, hp2, hl2, hc2, hdir2⟩ := ih hs (by rw [hcur']; omega) hok.2
    refine ⟨hs2, ?_, ?_, ?_, ?_⟩
    · rw [hp2, hp]; simp
    · rw [hl2, hl]
    · rw [hc2, hcur']; ring
    · rw [hdir2, hdir]

theorem synced_empty (dir : GoString) {d : Dir} (hempty : d.files = []) :
    Synced { dir := dir, entries := [], current := 0 } d := by
  refine ⟨by simp [Dir.names, hempty], by simp [hempty], List.Pairwise.nil, by simp, by simp,
    le_refl _, by simp⟩

theorem New_empty (dir : GoString) {d : Dir} (hlist : d.listable = true) (hempty : d.files = []) :
    New dir d = (.ok { dir := dir, entries := [], current := 0 }, d) := by
  rw [New_listable dir hlist]
  simp [Dir.names, hempty, sortInts]

theorem Enqueue_current (q : Queue) (d : Dir) (b : Bytes) :
    (Enqueue q d b).2.1.current = wrapInt (q.current + 1) := by
  rcases h : WriteFile d (Itoa (wrapInt (q.current + 1))) b with ⟨_ | err, d1⟩ <;>
    simp [Enqueue, h]

theorem Enqueue_dir (q : Queue) (d : Dir) (b : Bytes) : (Enqueue q d b).2.1.dir = q.dir := by
  rcases h : WriteFile d (Itoa (wrapInt (q.current + 1))) b with ⟨_ | err, d1⟩ <;>
    simp [Enqueue, h]

theorem Synced.step_dequeue {q : Queue} {d : Dir} (h : Synced q d) (hc : q.current ≤ maxInt) :
    Synced (Dequeue q d).2.1 (Dequeue q d).2.2 ∧ (Dequeue q d).2.1.current = q.current ∧
    (Dequeue q d).2.2.listable = d.listable ∧ (Dequeue q d).2.1.dir = q.dir := by
  cases he : q.entries with
  | nil =>
    rw [(h.dequeue_nil he).2]
    exact ⟨h, rfl, rfl, rfl⟩
  | cons id rest =>
    obtain ⟨f, fs, -, hdeq, hs⟩ := h.dequeue_cons hc he
    rw [hdeq]
    exact ⟨hs, rfl, rfl, rfl⟩

theorem Synced.run {calls : List Call} {q : Queue} {d : Dir} (h : Synced q d)
    (hc : q.current + enqueueCount calls ≤ maxInt) (hclean : cleanRun calls q d = true) :
    Synced (run calls q d).1 (run calls q d).2 ∧ (run calls q d).1.current ≤ maxInt ∧
    (run calls q d).2.listable = d.listable ∧ (run calls q d).1.dir = q.dir := by
  induction calls generalizing q d with
  | nil =>
    simp only [enqueueCount, Nat.cast_zero, add_zero] at hc
    exact ⟨h, hc, rfl, rfl⟩
  | cons c calls ih =>
    have hcur := h.counter
    cases c with
    | enqueue b =>
      simp only [enqueueCount, Nat.cast_add, Nat.cast_one] at hc
      simp only [cleanRun, Bool.and_eq_true, Bool.or_eq_true, beq_iff_eq] at hclean
      simp only [PQueue.run, step]
      cases hres : (Enqueue q d b).1 with
      | none =>
        obtain ⟨hs, -, hl, hcur', hdir⟩ := h.enqueue_ok (by omega) hres
        obtain ⟨h1, h2, h3, h4⟩ := ih hs (by rw [hcur']; omega) hclean.2
        exact ⟨h1, h2, by rw [h3, hl], by rw [h4, hdir]⟩
      | some err =>
        have hd : (Enqueue q d b).2.2 = d := by
          rcases hclean.1 with h' | h'
          · rw [hres] at h'; exact absurd h' (by simp)
          · exact h'
        obtain ⟨hs, -, hcur'⟩ := h.enqueue_fail (by omega) hres
        have hdir := Enqueue_dir q d b
        have hclean2 := hclean.2
        rw [hd] at hclean2 ⊢
        obtain ⟨h1, h2, h3, h4⟩ := ih hs (by rw [hcur']; omega) hclean2
        exact ⟨h1, h2, h3, by rw [h4, hdir]⟩
    | dequeue =>
      simp only [enqueueCount] at hc
      simp only [cleanRun] at hclean
      simp only [PQueue.run, step]
      obtain ⟨hs, hcur', hl, hdir⟩ := h.step_dequeue (by omega)
      obtain ⟨h1, h2, h3, h4⟩ := ih hs (by rw [hcur']; omega) hclean
      exact ⟨h1, h2, by rw [h3, hl], by rw [h4, hdir]⟩

/-! ## Lemmas on single calls -/

theorem lookup_append_fresh (d : Dir) (name : GoString) (f : File) (l : List (GoString × File))
    (w : Bool) (n : Nat) (h : ∀ e ∈ l, e.1 ≠ name) :
    ({ listable := d.listable, writable := w, free := n, files := l ++ [(name, f)] } : Dir).lookup name
      = some f := by
  unfold Dir.lookup
  simp only [List.find?_append]
  have : l.find? (fun e => e.1 == name) = none := by
    rw [List.find?_eq_none]
    intro e he
    simpa using h e he
  simp [this]

theorem Dequeue_fresh_entry {q : Queue} {d : Dir} {id : Int} {f : File} {files : List (GoString × File)}
    (he : q.entries = [id]) (hfiles : d.files = files ++ [(Itoa id, f)])
    (hnot : ∀ e ∈ files, e.1 ≠ Itoa id) (hr : f.readable = true) (hw : d.writable = true) :
    Dequeue q d = (.ok f.data, { q with entries := [] },
      { d with files := files, free := d.free + f.data.length }) := by
  have hlook : d.lookup (Itoa id) = some f := by
    have := lookup_append_fresh d (Itoa id) f files d.writable d.free hnot
    rw [← hfiles] at this
    exact this
  have herase : d.erase (Itoa id) = files := by
    unfold Dir.erase
    rw [hfiles, List.filter_append, List.filter_cons_of_neg (by simp), List.filter_nil,
      List.append_nil, List.filter_eq_self]
    intro e he'
    simpa using hnot e he'
  unfold Dequeue
  rw [he]
  simp [ReadFile, Remove, hlook, hr, hw, herase]

theorem ReadFile_dir (d : Dir) (name : GoString) : (ReadFile d name).2 = d := by
  unfold ReadFile
  split
  · split <;> rfl
  · rfl

theorem ReadFile_error {d : Dir} {name : GoString} {err : Err}
    (h : (ReadFile d name).1 = .error err) : err = .readFile := by
  unfold ReadFile at h
  split at h
  · split at h
    · simp at h
    · simpa using h.symm
  · simpa using h.symm

theorem Remove_error {d : Dir} {name : GoString} {err : Err}
    (h : (Remove d name).1 = some err) : err = .remove ∧ (Remove d name).2 = d := by
  unfold Remove at h ⊢
  split at h
  · split at h
    · simp at h
    · rename_i hw
      simp only [Option.some.injEq] at h
      simp [hw, h.symm]
  · simp only [Option.some.injEq] at h
    simp [h.symm]

theorem Dequeue_nil {q : Queue} (d : Dir) (he : q.entries = []) :
    Dequeue q d = (.error .ErrEmpty, q, d) := by
  unfold Dequeue
  rw [he]

theorem Dequeue_cons {q : Queue} (d : Dir) {id : Int} {rest : List Int}
    (he : q.entries = id :: rest) :
    Dequeue q d =
      match (ReadFile d (Itoa id)).1 with
      | .error err => (.error err, q, d)
      | .ok b =>
        match Remove d (Itoa id) with
        | (some err, d2) => (.error err, q, d2)
        | (none, d2) => (.ok b, { q with entries := rest }, d2) := by
  unfold Dequeue
  rw [he]
  simp only
  rcases hr : ReadFile d (Itoa id) with ⟨r, d1⟩
  have hd : d1 = d := by
    have := ReadFile_dir d (Itoa id)
    rw [hr] at this
    exact this
  subst hd
  cases r <;> rfl

theorem mem_filterMap_Atoi (names : List GoString) (k : Int) :
    k ∈ names.filterMap Atoi ↔ ∃ name ∈ names, Atoi name = some k := by
  simp [List.mem_filterMap]

theorem Atoi_range {s : GoString} {k : Int} (h : Atoi s = some k) : minInt ≤ k ∧ k ≤ maxInt := by
  unfold Atoi at h
  unfold minInt maxInt
  cases s with
  | nil => simp at h
  | cons c rest =>
    simp only at h
    generalize (if (c == 45) = true ∨ (c == 43) = true then rest else c :: rest) = digits at h
    cases digits with
    | nil => simp at h
    | cons x xs =>
      simp only at h
      cases hp : parseDigits 0 (x :: xs) with
      | none => rw [hp] at h; simp at h
      | some n =>
        rw [hp] at h
        simp only at h
        split at h <;> split at h <;> simp at h <;> omega

theorem WriteFile_ok {d : Dir} {name : GoString} {b : Bytes} (h : (WriteFile d name b).1 = none) :
    ∃ f : File, (WriteFile d name b).2.lookup name = some f ∧ f.data = b := by
  unfold WriteFile writeData at h ⊢
  split at h
  · split at h
    · split at h
      · rename_i hlook hw hb
        rw [lookup_eq_none_iff] at hlook
        simp only [hw, hb, if_true]
        exact ⟨⟨b, true, true⟩, lookup_append_fresh d name _ d.files _ _
            (fun e he heq => hlook (heq ▸ List.mem_map_of_mem _ he)), rfl⟩
      · simp at h
    · simp at h
  · split at h
    · split at h
      · rename_i f hlook hw hb
        simp only [hw, hb, if_true]
        refine ⟨⟨b, f.readable, true⟩, lookup_append_fresh d name _ (d.erase name) _ _ ?_, rfl⟩
        intro e he
        unfold Dir.erase at he
        simpa using (List.mem_filter.1 he).2
      · simp at h
    · simp at h

theorem Enqueue_ok {q : Queue} {d : Dir} {b : Bytes} (h : (Enqueue q d b).1 = none) :
    (Enqueue q d b).2.1 = { q with entries := q.entries ++ [wrapInt (q.current + 1)],
                                   current := wrapInt (q.current + 1) } ∧
    ∃ f : File, (Enqueue q d b).2.2.lookup (Itoa (wrapInt (q.current + 1))) = some f ∧
      f.data = b := by
  rcases hw : WriteFile d (Itoa (wrapInt (q.current + 1))) b with ⟨_ | err, d1⟩
  · have hok := WriteFile_ok (congrArg Prod.fst hw)
    rw [hw] at hok
    have heq : Enqueue q d b = (none, ⟨q.dir, q.entries ++ [wrapInt (q.current + 1)],
        wrapInt (q.current + 1)⟩, d1) := by
      simp [Enqueue, hw]
    rw [heq]
    exact ⟨rfl, hok⟩
  · simp [Enqueue, hw] at h

theorem wrapInt_add_left (a j : Int) : wrapInt (wrapInt a + j) = wrapInt (a + j) := by
  unfold wrapInt
  omega

theorem wrapInt_ne_of_lt (a j : Int) (h1 : 0 < j) (h2 : j < 18446744073709551616) :
    wrapInt (a + j) ≠ wrapInt a := by
  unfold wrapInt
  omega

theorem Dequeue_current (q : Queue) (d : Dir) : (Dequeue q d).2.1.current = q.current := by
  cases he : q.entries with
  | nil => rw [Dequeue_nil d he]
  | cons id rest =>
    rw [Dequeue_cons d he]
    cases (ReadFile d (Itoa id)).1 with
    | error err => rfl
    | ok b =>
      simp only
      rcases Remove d (Itoa id) with ⟨_ | err, d2⟩ <;> rfl

theorem assignedIds_spec (calls : List Call) (q : Queue) (d : Dir) :
    ∀ id ∈ assignedIds calls q d,
      ∃ j : Nat, 1 ≤ j ∧ j ≤ enqueueCount calls ∧ id = wrapInt (q.current + j) := by
  induction calls generalizing q d with
  | nil => simp [assignedIds]
  | cons c calls ih =>
    intro id hid
    cases c with
    | enqueue b =>
      have hrest : id ∈ assignedIds calls (Enqueue q d b).2.1 (Enqueue q d b).2.2 →
          ∃ j : Nat, 1 ≤ j ∧ j ≤ enqueueCount calls + 1 ∧ id = wrapInt (q.current + j) := by
        intro h
        obtain ⟨j, hj1, hj2, hj3⟩ := ih _ _ id h
        refine ⟨j + 1, by omega, by omega, ?_⟩
        rw [hj3, Enqueue_current, wrapInt_add_left]
        push_cast
        ring_nf
      simp only [assignedIds] at hid
      simp only [enqueueCount]
      split at hid
      · rcases List.mem_cons.1 hid with h | h
        · exact ⟨1, le_refl _, by omega, by rw [h, Enqueue_current]; rfl⟩
        · exact hrest h
      · exact hrest hid
    | dequeue =>
      simp only [assignedIds] at hid
      simp only [enqueueCount]
      obtain ⟨j, hj1, hj2, hj3⟩ := ih _ _ id hid
      exact ⟨j, hj1, hj2, by rw [hj3, Dequeue_current]⟩

theorem Enqueue_fail {q : Queue} {d : Dir} {b : Bytes} {err : Err}
    (h : (Enqueue q d b).1 = some err) :
    (Enqueue q d b).2.1 = { q with current := wrapInt (q.current + 1) } := by
  rcases hw : WriteFile d (Itoa (wrapInt (q.current + 1))) b with ⟨_ | err', d1⟩
  · simp [Enqueue, hw] at h
  · simp [Enqueue, hw]

theorem Enqueue_result (q : Queue) (d : Dir) (b : Bytes) :
    (Enqueue q d b).1 = (WriteFile d (Itoa (wrapInt (q.current + 1))) b).1 ∧
    (Enqueue q d b).2.2 = (WriteFile d (Itoa (wrapInt (q.current + 1))) b).2 := by
  rcases hw : WriteFile d (Itoa (wrapInt (q.current + 1))) b with ⟨_ | err', d1⟩ <;>
    simp [Enqueue, hw]

theorem Remove_ok {d : Dir} {name : GoString} (h : (Remove d name).1 = none) :
    ∃ f : File, d.lookup name = some f ∧
      (Remove d name).2 = { d with files := d.erase name, free := d.free + f.data.length } := by
  unfold Remove at h ⊢
  cases hl : d.lookup name with
  | none => rw [hl] at h; simp at h
  | some f =>
    rw [hl] at h
    simp only at h ⊢
    by_cases hw : d.writable = true
    · exact ⟨f, rfl, by simp [hw]⟩
    · simp [hw] at h

theorem ReadFile_ok {d : Dir} {name : GoString} {b : Bytes} (h : (ReadFile d name).1 = .ok b) :
    ∃ f : File, d.lookup name = some f ∧ f.data = b := by
  unfold ReadFile at h
  cases hl : d.lookup name with
  | none => rw [hl] at h; simp at h
  | some f =>
    rw [hl] at h
    simp only at h
    by_cases hr : f.readable = true
    · simp only [hr, if_true, Except.ok.injEq] at h
      exact ⟨f, rfl, h⟩
    · simp [hr] at h

theorem Dequeue_ok {q : Queue} {d : Dir} {b : Bytes} (hok : (Dequeue q d).1 = .ok b) :
    ∃ (id : Int) (rest : List Int) (f : File),
      q.entries = id :: rest ∧ d.lookup (Itoa id) = some f ∧ f.data = b ∧
      Dequeue q d = (.ok b, { q with entries := rest },
        { d with files := d.erase (Itoa id), free := d.free + f.data.length }) := by
  cases he : q.entries with
  | nil => rw [Dequeue_nil d he] at hok; simp at hok
  | cons id rest =>
    have hd := Dequeue_cons d he
    cases hr : (ReadFile d (Itoa id)).1 with
    | error err => rw [hr] at hd; rw [hd] at hok; simp at hok
    | ok b' =>
      rw [hr] at hd
      simp only at hd
      rcases hrm : Remove d (Itoa id) with ⟨_ | err, d2⟩
      · rw [hrm] at hd
        simp only at hd
        rw [hd] at hok
        simp only [Except.ok.injEq] at hok
        subst hok
        obtain ⟨f, hlook, hdata⟩ := ReadFile_ok hr
        obtain ⟨f', hlook', hd2⟩ := Remove_ok (congrArg Prod.fst hrm)
        rw [hrm] at hd2
        simp only at hd2
        rw [hlook] at hlook'
        cases hlook'
        subst hd2
        exact ⟨id, rest, f, rfl, hlook, hdata, hd⟩
      · rw [hrm] at hd
        rw [hd] at hok
        simp at hok

/-! ## Lemmas on the states reached from `New` -/

theorem WriteFile_names (d : Dir) (name : GoString) (b : Bytes) :
    ∀ other ∈ (WriteFile d name b).2.names, other = name ∨ other ∈ d.names := by
  intro other ho
  unfold WriteFile writeData at ho
  unfold Dir.names at ho ⊢
  split at ho
  · split at ho
    · split at ho <;>
      · simp only [List.map_append, List.mem_append, List.map_cons, List.map_nil,
          List.mem_singleton] at ho
        exact ho.symm
    · exact Or.inr ho
  · split at ho
    · have herase : ∀ o ∈ (d.erase name).map (fun e => e.1), o ∈ d.files.map (fun e => e.1) := by
        intro o hmem
        obtain ⟨e, he, rfl⟩ := List.mem_map.1 hmem
        exact List.mem_map_of_mem _ (List.mem_filter.1 he).1
      split at ho <;>
      · simp only [List.map_append, List.mem_append, List.map_cons, List.map_nil,
          List.mem_singleton] at ho
        rcases ho with ho | ho
        · exact Or.inr (herase _ ho)
        · exact Or.inl ho
    · exact Or.inr ho

theorem Dequeue_names (q : Queue) (d : Dir) :
    ∀ other ∈ (Dequeue q d).2.2.names, other ∈ d.names := by
  intro other ho
  cases hres : (Dequeue q d).1 with
  | error err =>
    cases he : q.entries with
    | nil => rw [Dequeue_nil d he] at ho; exact ho
    | cons id rest =>
      have hd := Dequeue_cons d he
      cases hr : (ReadFile d (Itoa id)).1 with
      | error err' => rw [hr] at hd; rw [hd] at ho; exact ho
      | ok b =>
        rw [hr] at hd
        simp only at hd
        rcases hrm : Remove d (Itoa id) with ⟨_ | err', d2⟩
        · rw [hrm] at hd
          rw [hd] at hres
          simp at hres
        · have := (Remove_error (congrArg Prod.fst hrm)).2
          rw [hrm] at hd this
          simp only at hd this
          rw [hd] at ho
          simp only at ho
          rw [this] at ho
          exact ho
  | ok b =>
    obtain ⟨id, rest, f, -, -, -, hd⟩ := Dequeue_ok hres
    rw [hd] at ho
    unfold Dir.names Dir.erase at ho
    obtain ⟨e, he, rfl⟩ := List.mem_map.1 ho
    exact List.mem_map_of_mem _ (List.mem_filter.1 he).1

theorem covers_new {dir : GoString} {d : Dir} {q : Queue} (h : New dir d = (.ok q, d))
    (hl : d.listable = true) : Covers q d ∧ minInt ≤ q.current ∧ q.current ≤ maxInt := by
  rw [New_listable dir hl] at h
  simp only [Prod.mk.injEq, Except.ok.injEq, and_true] at h
  subst h
  cases hlast : (sortInts (d.names.filterMap Atoi)).getLast? with
  | none =>
    have hnil := List.getLast?_eq_none_iff.1 hlast
    refine ⟨?_, by simp [minInt], by simp [maxInt]⟩
    intro name hname k hk
    have : k ∈ sortInts (d.names.filterMap Atoi) :=
      (sortInts_perm _).mem_iff.2 ((mem_filterMap_Atoi _ _).2 ⟨name, hname, hk⟩)
    rw [hnil] at this
    simp at this
  | some last =>
    have hmem := (sortInts_perm _).mem_iff.1 (List.mem_of_getLast?_eq_some hlast)
    obtain ⟨name, -, hk⟩ := (mem_filterMap_Atoi _ _).1 hmem
    refine ⟨?_, by simpa using (Atoi_range hk).1, by simpa using (Atoi_range hk).2⟩
    intro name' hname' k hk'
    simp only [Option.getD_some]
    exact getLast_le_of_sorted (sortInts_sorted _) hlast k
      ((sortInts_perm _).mem_iff.2 ((mem_filterMap_Atoi _ _).2 ⟨name', hname', hk'⟩))

theorem covers_fresh {q : Queue} {d : Dir} (h : Covers q d) (hlo : minInt ≤ q.current)
    (hhi : q.current < maxInt) : d.lookup (Itoa (wrapInt (q.current + 1))) = none := by
  have hr : minInt ≤ q.current + 1 ∧ q.current + 1 ≤ maxInt := ⟨by omega, by omega⟩
  rw [wrapInt_of_range hr.1 hr.2, lookup_eq_none_iff]
  intro hmem
  have := h _ hmem _ (Atoi_Itoa _ hr.1 hr.2)
  omega

theorem covers_enqueue {q : Queue} {d : Dir} (h : Covers q d) (hlo : minInt ≤ q.current)
    (hhi : q.current < maxInt) (b : Bytes) :
    Covers (Enqueue q d b).2.1 (Enqueue q d b).2.2 ∧
    (Enqueue q d b).2.1.current = q.current + 1 := by
  have hr : minInt ≤ q.current + 1 ∧ q.current + 1 ≤ maxInt := ⟨by omega, by omega⟩
  have hcur : (Enqueue q d b).2.1.current = q.current + 1 := by
    rw [Enqueue_current, wrapInt_of_range hr.1 hr.2]
  refine ⟨?_, hcur⟩
  intro name hname k hk
  rw [hcur]
  rw [(Enqueue_result q d b).2, wrapInt_of_range hr.1 hr.2] at hname
  rcases WriteFile_names d _ b name hname with rfl | hold
  · rw [Atoi_Itoa _ hr.1 hr.2] at hk
    exact le_of_eq (Option.some.inj hk).symm
  · have := h name hold k hk
    omega

theorem covers_dequeue {q : Queue} {d : Dir} (h : Covers q d) :
    Covers (Dequeue q d).2.1 (Dequeue q d).2.2 := by
  intro name hname k hk
  rw [Dequeue_current]
  exact h name (Dequeue_names q d name hname) k hk

theorem covers_run {calls : List Call} {q : Queue} {d : Dir} (h : Covers q d)
    (hlo : minInt ≤ q.current) (hhi : q.current + enqueueCount calls ≤ maxInt) :
    Covers (run calls q d).1 (run calls q d).2 ∧ minInt ≤ (run calls q d).1.current ∧
    (run calls q d).1.current = q.current + enqueueCount calls := by
  induction calls generalizing q d with
  | nil => exact ⟨h, hlo, by simp [PQueue.run, enqueueCount]⟩
  | cons c calls ih =>
    cases c with
    | enqueue b =>
      simp only [enqueueCount, Nat.cast_add, Nat.cast_one] at hhi ⊢
      simp only [PQueue.run, step]
      have hc : (0 : Int) ≤ enqueueCount calls := Int.ofNat_nonneg _
      obtain ⟨h1, hcur⟩ := covers_enqueue h hlo (by omega) b
      obtain ⟨h2, h3, h4⟩ := ih h1 (by omega) (by omega)
      exact ⟨h2, h3, by rw [h4, hcur]; ring⟩
    | dequeue =>
      simp only [enqueueCount] at hhi ⊢
      simp only [PQueue.run, step]
      have hcur := Dequeue_current q d
      obtain ⟨h2, h3, h4⟩ := ih (covers_dequeue h) (by omega) (by omega)
      exact ⟨h2, h3, by rw [h4, hcur]⟩

/-- In every state reached from `New` by calls of `Enqueue` and `Dequeue` that keep the
counter below the largest `int`, no file of the directory has the name that the next
`Enqueue` writes. -/
theorem fresh_of_run (dir : GoString) (d : Dir) (q : Queue) (calls : List Call)
    (hl : d.listable = true) (hnew : New dir d = (.ok q, d))
    (hhi : q.current + enqueueCount calls < maxInt) :
    (run calls q d).2.lookup (Itoa (wrapInt ((run calls q d).1.current + 1))) = none := by
  obtain ⟨hc, hlo, -⟩ := covers_new hnew hl
  obtain ⟨h1, h2, h3⟩ := covers_run hc hlo (le_of_lt hhi)
  exact covers_fresh h1 h2 (by rw [h3]; exact hhi)

/-- The queue that `New` returns over a listable directory: its pending ids are the
integers parsed from the file names, and its counter is the largest of them, or 0. -/
theorem New_counter (dir : GoString) {d : Dir} (hlist : d.listable = true) :
    ∃ q : Queue, New dir d = (.ok q, d) ∧
      (∀ k, k ∈ q.entries ↔ ∃ name ∈ d.names, Atoi name = some k) ∧
      (q.entries = [] → q.current = 0) ∧
      (q.entries ≠ [] → q.current ∈ q.entries ∧ ∀ k ∈ q.entries, k ≤ q.current) := by
  refine ⟨_, New_listable dir hlist, fun k => ?_, fun h => ?_, fun h => ?_⟩
  · simp only
    rw [(sortInts_perm _).mem_iff, mem_filterMap_Atoi]
  · simp only at h ⊢
    rw [h]
    rfl
  · simp only at h ⊢
    cases hl : (sortInts (d.names.filterMap Atoi)).getLast? with
    | none => exact absurd (List.getLast?_eq_none_iff.1 hl) h
    | some last =>
      exact ⟨List.mem_of_getLast?_eq_some hl, getLast_le_of_sorted (sortInts_sorted _) hl⟩

/-! ## Lemmas on the files a call leaves alone -/

theorem lookup_append_ne (d : Dir) (name other : GoString) (f : File) (l : List (GoString × File))
    (w : Bool) (n : Nat) (h : other ≠ name) :
    ({ listable := d.listable, writable := w, free := n, files := l ++ [(name, f)] } : Dir).lookup other
      = (l.find? (fun e => e.1 == other)).map (fun e => e.2) := by
  unfold Dir.lookup
  simp only [List.find?_append]
  cases l.find? (fun e => e.1 == other) with
  | some e => rfl
  | none =>
    have : (name == other) = false := by
      rw [beq_eq_false_iff_ne]; exact fun h' => h h'.symm
    simp [List.find?_cons, this]

theorem WriteFile_lookup_ne (d : Dir) (name other : GoString) (b : Bytes) (h : other ≠ name) :
    (WriteFile d name b).2.lookup other = d.lookup other := by
  unfold WriteFile writeData
  split
  · split
    · split <;>
      · rw [lookup_append_ne d name other _ _ _ _ h]
        rfl
    · rfl
  · split
    · split <;>
      · rw [lookup_append_ne d name other _ _ _ _ h]
        unfold Dir.erase Dir.lookup
        rw [find_filter_ne _ _ _ h]
    · rfl

theorem Enqueue_lookup_ne (q : Queue) (d : Dir) (b : Bytes) (other : GoString)
    (h : other ≠ Itoa (wrapInt (q.current + 1))) :
    (Enqueue q d b).2.2.lookup other = d.lookup other := by
  rw [(Enqueue_result q d b).2]
  exact WriteFile_lookup_ne d _ other b h

theorem Remove_lookup_ne (d : Dir) (name other : GoString) (h : other ≠ name) :
    (Remove d name).2.lookup other = d.lookup other := by
  cases hr : (Remove d name).1 with
  | none =>
    obtain ⟨f, -, hd⟩ := Remove_ok hr
    rw [hd]
    exact lookup_erase_ne d name other h _ _
  | some err => rw [(Remove_error hr).2]

theorem Dequeue_lookup_ne (q : Queue) (d : Dir) (other : GoString)
    (h : ∀ id ∈ q.entries.head?, other ≠ Itoa id) :
    (Dequeue q d).2.2.lookup other = d.lookup other := by
  cases he : q.entries with
  | nil => rw [Dequeue_nil d he]
  | cons id rest =>
    have hne : other ≠ Itoa id := h id (by rw [he]; rfl)
    rw [Dequeue_cons d he]
    cases (ReadFile d (Itoa id)).1 with
    | error err => rfl
    | ok b =>
      simp only
      have := Remove_lookup_ne d (Itoa id) other hne
      rcases hrm : Remove d (Itoa id) with ⟨_ | err, d2⟩ <;>
      · rw [hrm] at this
        exact this

theorem wrapInt_range (x : Int) : minInt ≤ wrapInt x ∧ wrapInt x ≤ maxInt := by
  unfold minInt maxInt wrapInt
  omega

theorem filterMap_Atoi_erase (files : List (GoString × File)) (name : GoString)
    (hname : Atoi name = none) :
    ((files.filter (fun e => !(e.1 == name))).map (fun e => e.1)).filterMap Atoi
      = (files.map (fun e => e.1)).filterMap Atoi := by
  induction files with
  | nil => rfl
  | cons e files ih =>
    by_cases he : e.1 = name
    · rw [List.filter_cons_of_neg (by simp [he]), ih]
      simp [List.filterMap_cons, he, hname]
    · rw [List.filter_cons_of_pos (by simp [he])]
      simp only [List.map_cons, List.filterMap_cons, ih]

theorem New_erase (dir : GoString) (d : Dir) (name : GoString) (hname : Atoi name = none) :
    (New dir { d with files := d.erase name }).1 = (New dir d).1 := by
  cases hl : d.listable with
  | false =>
    rw [New_not_listable dir hl, New_not_listable dir rfl]
  | true =>
    rw [New_listable dir hl, New_listable dir rfl]
    simp only [Dir.names, Dir.erase]
    rw [filterMap_Atoi_erase _ _ hname]

theorem Atoi_nonneg {s : GoString} {k : Int} (h : Atoi s = some k) (hs : s.head? ≠ some 45) :
    0 ≤ k := by
  unfold Atoi at h
  cases s with
  | nil => simp at h
  | cons c rest =>
    have hc : (c == 45) = false := by
      rw [beq_eq_false_iff_ne]
      intro hc
      exact hs (by rw [hc]; rfl)
    simp only [hc] at h
    generalize (if false = true ∨ (c == 43) = true then rest else c :: rest) = digits at h
    cases digits with
    | nil => simp at h
    | cons x xs =>
      simp only at h
      cases hp : parseDigits 0 (x :: xs) with
      | none => rw [hp] at h; simp at h
      | some n =>
        rw [hp] at h
        simp only [Bool.false_eq_true, if_false] at h
        split at h
        · simp only [Option.some.injEq] at h
          omega
        · simp at h

/-! ## Lemmas on the correspondence between files and ids -/

theorem nodup_filterMap_of_injOn {α β : Type} (f : α → Option β) (l : List α)
    (hinj : ∀ a ∈ l, ∀ a' ∈ l, ∀ b, f a = some b → f a' = some b → a = a')
    (hl : l.Nodup) : (l.filterMap f).Nodup := by
  induction l with
  | nil => simp
  | cons a l ih =>
    have hl' := List.nodup_cons.1 hl
    have ih' := ih (fun x hx y hy b hb hb' =>
      hinj x (List.mem_cons_of_mem _ hx) y (List.mem_cons_of_mem _ hy) b hb hb') hl'.2
    rw [List.filterMap_cons]
    cases hfa : f a with
    | none => exact ih'
    | some b =>
      refine List.nodup_cons.2 ⟨?_, ih'⟩
      intro hmem
      obtain ⟨a', ha', hfa'⟩ := List.mem_filterMap.1 hmem
      have := hinj a (List.mem_cons_self _ _) a' (List.mem_cons_of_mem _ ha') b hfa hfa'
      exact hl'.1 (this ▸ ha')

theorem length_filterMap_eq {α β : Type} (f : α → Option β) (l : List α) :
    (l.filterMap f).length = (l.filter (fun a => (f a).isSome)).length := by
  induction l with
  | nil => rfl
  | cons a l ih =>
    rw [List.filterMap_cons]
    cases hfa : f a with
    | none => rw [List.filter_cons_of_neg (by simp [hfa]), ih]
    | some b => rw [List.filter_cons_of_pos (by simp [hfa]), List.length_cons, List.length_cons, ih]

/-! ## Lemmas on the order of the pending ids and of the counter -/

theorem Dequeue_queue (q : Queue) (d : Dir) :
    (Dequeue q d).2.1 = q ∨
    ∃ (id : Int) (rest : List Int), q.entries = id :: rest ∧
      (Dequeue q d).2.1 = { q with entries := rest } := by
  cases hres : (Dequeue q d).1 with
  | ok b =>
    obtain ⟨id, rest, f, he, -, -, hd⟩ := Dequeue_ok hres
    exact Or.inr ⟨id, rest, he, by rw [hd]⟩
  | error err =>
    left
    cases he : q.entries with
    | nil => rw [Dequeue_nil d he]
    | cons id rest =>
      have hd := Dequeue_cons d he
      cases hr : (ReadFile d (Itoa id)).1 with
      | error err' => rw [hr] at hd; rw [hd]
      | ok b =>
        rw [hr] at hd
        simp only at hd
        rcases hrm : Remove d (Itoa id) with ⟨_ | err', d2⟩
        · rw [hrm] at hd
          rw [hd] at hres
          simp at hres
        · rw [hrm] at hd
          rw [hd]

theorem Enqueue_queue (q : Queue) (d : Dir) (b : Bytes) :
    (Enqueue q d b).2.1 = { q with current := wrapInt (q.current + 1) } ∨
    (Enqueue q d b).2.1 = { q with entries := q.entries ++ [wrapInt (q.current + 1)],
                                   current := wrapInt (q.current + 1) } := by
  cases hres : (Enqueue q d b).1 with
  | none => exact Or.inr (Enqueue_ok hres).1
  | some err => exact Or.inl (Enqueue_fail hres)

theorem sorted_run {calls : List Call} {q : Queue} {d : Dir}
    (hs : q.entries.Sorted (· ≤ ·)) (hb : ∀ id ∈ q.entries, id ≤ q.current)
    (hlo : minInt ≤ q.current) (hhi : q.current + enqueueCount calls ≤ maxInt) :
    (run calls q d).1.entries.Sorted (· ≤ ·) ∧
    ∀ id ∈ (run calls q d).1.entries, id ≤ (run calls q d).1.current := by
  induction calls generalizing q d with
  | nil => exact ⟨hs, hb⟩
  | cons c calls ih =>
    have hc : (0 : Int) ≤ enqueueCount calls := Int.ofNat_nonneg _
    cases c with
    | enqueue b =>
      simp only [enqueueCount, Nat.cast_add, Nat.cast_one] at hhi
      simp only [PQueue.run, step]
      have hw : wrapInt (q.current + 1) = q.current + 1 :=
        wrapInt_of_range (by omega) (by omega)
      rcases Enqueue_queue q d b with hq | hq
      · rw [hw] at hq
        refine ih (by rw [hq]; exact hs) ?_ (by rw [hq]; show minInt ≤ q.current + 1; omega)
          (by rw [hq]; show q.current + 1 + _ ≤ maxInt; omega)
        rw [hq]
        intro id hid
        have := hb id hid
        show id ≤ q.current + 1
        omega
      · rw [hw] at hq
        refine ih ?_ ?_ (by rw [hq]; show minInt ≤ q.current + 1; omega)
          (by rw [hq]; show q.current + 1 + _ ≤ maxInt; omega)
        · rw [hq]
          show List.Sorted (· ≤ ·) (q.entries ++ [q.current + 1])
          refine List.pairwise_append.2 ⟨hs, List.pairwise_singleton _ _, ?_⟩
          intro a ha c hc'
          rw [List.mem_singleton.1 hc']
          have := hb a ha
          omega
        · rw [hq]
          intro id hid
          show id ≤ q.current + 1
          rcases List.mem_append.1 hid with h | h
          · have := hb id h
            omega
          · rw [List.mem_singleton.1 h]
    | dequeue =>
      simp only [enqueueCount] at hhi
      simp only [PQueue.run, step]
      rcases Dequeue_queue q d with hq | ⟨id, rest, he, hq⟩
      · rw [hq]
        exact ih hs hb hlo hhi
      · rw [hq]
        rw [he] at hs hb
        exact ih (List.Sorted.of_cons hs) (fun k hk => hb k (List.mem_cons_of_mem _ hk)) hlo hhi

theorem New_sorted {dir : GoString} {d : Dir} {q : Queue} (hl : d.listable = true)
    (hnew : New dir d = (.ok q, d)) :
    q.entries.Sorted (· ≤ ·) ∧ (∀ id ∈ q.entries, id ≤ q.current) ∧ minInt ≤ q.current := by
  obtain ⟨q1, hnew1, -, -, hcons⟩ := New_counter dir hl
  rw [hnew] at hnew1
  simp only [Prod.mk.injEq, Except.ok.injEq, and_true] at hnew1
  subst hnew1
  have hq := hnew
  rw [New_listable dir hl] at hq
  simp only [Prod.mk.injEq, Except.ok.injEq, and_true] at hq
  refine ⟨by rw [← hq]; exact sortInts_sorted _, ?_, (covers_new hnew hl).2.1⟩
  intro id hid
  exact (hcons (List.ne_nil_of_mem hid)).2 id hid

theorem run_current {calls : List Call} {q : Queue} {d : Dir}
    (hlo : minInt ≤ q.current) (hhi : q.current + enqueueCount calls ≤ maxInt) :
    (run calls q d).1.current = q.current + enqueueCount calls := by
  induction calls generalizing q d with
  | nil => simp [PQueue.run, enqueueCount]
  | cons c calls ih =>
    have hc : (0 : Int) ≤ enqueueCount calls := Int.ofNat_nonneg _
    cases c with
    | enqueue b =>
      simp only [enqueueCount, Nat.cast_add, Nat.cast_one] at hhi ⊢
      simp only [PQueue.run, step]
      have hcur : (Enqueue q d b).2.1.current = q.current + 1 := by
        rw [Enqueue_current, wrapInt_of_range (by omega) (by omega)]
      rw [ih (by rw [hcur]; omega) (by rw [hcur]; omega), hcur]
      ring
    | dequeue =>
      simp only [enqueueCount] at hhi ⊢
      simp only [PQueue.run, step]
      rw [ih (by rw [Dequeue_current]; exact hlo) (by rw [Dequeue_current]; exact hhi),
        Dequeue_current]

theorem assignedIds_increasing {calls : List Call} {q : Queue} {d : Dir}
    (hlo : minInt ≤ q.current) (hhi : q.current + enqueueCount calls ≤ maxInt) :
    (assignedIds calls q d).Pairwise (· < ·) ∧ ∀ id ∈ assignedIds calls q d, q.current < id := by
  induction calls generalizing q d with
  | nil => simp [assignedIds]
  | cons c calls ih =>
    have hc : (0 : Int) ≤ enqueueCount calls := Int.ofNat_nonneg _
    cases c with
    | enqueue b =>
      simp only [enqueueCount, Nat.cast_add, Nat.cast_one] at hhi
      have hcur : (Enqueue q d b).2.1.current = q.current + 1 := by
        rw [Enqueue_current, wrapInt_of_range (by omega) (by omega)]
      obtain ⟨h1, h2⟩ := @ih (Enqueue q d b).2.1 (Enqueue q d b).2.2
        (by rw [hcur]; omega) (by rw [hcur]; omega)
      rw [hcur] at h2
      simp only [assignedIds]
      split
      · rw [hcur]
        refine ⟨List.pairwise_cons.2 ⟨h2, h1⟩, ?_⟩
        intro id hid
        rcases List.mem_cons.1 hid with h | h
        · omega
        · have := h2 id h
          omega
      · exact ⟨h1, fun id hid => by have := h2 id hid; omega⟩
    | dequeue =>
      simp only [enqueueCount] at hhi
      simp only [assignedIds]
      have := @ih (Dequeue q d).2.1 (Dequeue q d).2.2
        (by rw [Dequeue_current]; exact hlo) (by rw [Dequeue_current]; exact hhi)
      rw [Dequeue_current] at this
      exact this

/-! ## Lemmas on the abstract queue -/

theorem abstraction_files (files : List (GoString × File)) (ids : List Int)
    (hnames : files.map (fun e => e.1) = ids.map Itoa)
    (hinc : ids.Pairwise (· < ·))
    (hrange : ∀ id ∈ ids, minInt ≤ id ∧ id ≤ maxInt) :
    ids.filterMap (fun id => ((files.find? (fun e => e.1 == Itoa id)).map (fun e => e.2)).map
        (fun f => f.data))
      = files.map (fun e => e.2.data) := by
  induction ids generalizing files with
  | nil =>
    cases files with
    | nil => rfl
    | cons e fs => simp at hnames
  | cons id rest ih =>
    cases files with
    | nil => simp at hnames
    | cons e fs =>
      simp only [List.map_cons, List.cons.injEq] at hnames
      obtain ⟨hname, hrest⟩ := hnames
      have hhead : (e :: fs).find? (fun e' => e'.1 == Itoa id) = some e := by
        rw [List.find?_cons_of_pos _ (by simp [hname])]
      have htail : ∀ j ∈ rest, (e :: fs).find? (fun e' => e'.1 == Itoa j)
          = fs.find? (fun e' => e'.1 == Itoa j) := by
        intro j hj
        apply List.find?_cons_of_neg
        simp only [beq_iff_eq, hname]
        intro heq
        have := Itoa_inj (hrange id (List.mem_cons_self _ _))
          (hrange j (List.mem_cons_of_mem _ hj)) heq
        have := (List.pairwise_cons.1 hinc).1 j hj
        omega
      rw [List.filterMap_cons, hhead]
      simp only [Option.map_some', List.map_cons, List.cons.injEq, true_and]
      rw [← ih fs hrest (List.pairwise_cons.1 hinc).2
        (fun j hj => hrange j (List.mem_cons_of_mem _ hj))]
      apply List.filterMap_congr
      intro j hj
      rw [htail j hj]

theorem synced_abstraction {q : Queue} {d : Dir} (h : Synced q d) (hc : q.current ≤ maxInt) :
    abstraction q d = d.payloads := by
  unfold abstraction Dir.payloads Dir.lookup
  exact abstraction_files d.files q.entries h.names h.increasing (fun id hid => h.inRange hc hid)

theorem synced_dequeue_abstract {q : Queue} {d : Dir} (h : Synced q d) (hc : q.current ≤ maxInt) :
    (Dequeue q d).1 = (abstractDequeue d.payloads).1 ∧
    (Dequeue q d).2.2.payloads = (abstractDequeue d.payloads).2 := by
  cases he : q.entries with
  | nil =>
    obtain ⟨hfiles, hd⟩ := h.dequeue_nil he
    rw [hd]
    simp [Dir.payloads, hfiles, abstractDequeue]
  | cons id rest =>
    obtain ⟨f, fs, hfiles, hd, -⟩ := h.dequeue_cons hc he
    rw [hd]
    simp [Dir.payloads, hfiles, abstractDequeue]

theorem synced_simulation {calls : List Call} {q : Queue} {d : Dir} (h : Synced q d)
    (hc : q.current + enqueueCount calls ≤ maxInt) (hsucc : succeeds calls q d = true) :
    Synced (run calls q d).1 (run calls q d).2 ∧
    (run calls q d).1.current = q.current + enqueueCount calls ∧
    (run calls q d).2.payloads = abstractRun calls d.payloads ∧
    d.payloads ++ enqueuedPayloads calls q d
      = dequeuedPayloads calls q d ++ (run calls q d).2.payloads := by
  induction calls generalizing q d with
  | nil => simp [PQueue.run, enqueueCount, abstractRun, enqueuedPayloads, dequeuedPayloads, h]
  | cons c calls ih =>
    have hcur := h.counter
    have hcnt : (0 : Int) ≤ enqueueCount calls := Int.ofNat_nonneg _
    cases c with
    | enqueue b =>
      simp only [enqueueCount, Nat.cast_add, Nat.cast_one] at hc ⊢
      simp only [succeeds, Bool.and_eq_true, beq_iff_eq] at hsucc
      obtain ⟨hs, hp, -, hcur', -⟩ := h.enqueue_ok (by omega) hsucc.1
      obtain ⟨h1, h2, h3, h4⟩ := ih hs (by rw [hcur']; omega) hsucc.2
      simp only [PQueue.run, step, abstractRun, abstractEnqueue, enqueuedPayloads,
        dequeuedPayloads, hsucc.1, if_true]
      refine ⟨h1, by rw [h2, hcur']; ring, by rw [h3, hp], ?_⟩
      rw [← h4, hp]
      simp
    | dequeue =>
      simp only [enqueueCount] at hc ⊢
      simp only [succeeds, Bool.and_eq_true] at hsucc
      obtain ⟨hs, hcur', -, -⟩ := h.step_dequeue (by omega)
      obtain ⟨hres, hpay⟩ := synced_dequeue_abstract h (by omega)
      obtain ⟨h1, h2, h3, h4⟩ := ih hs (by rw [hcur']; omega) hsucc.2
      simp only [PQueue.run, step, abstractRun, enqueuedPayloads, dequeuedPayloads]
      refine ⟨h1, by rw [h2, hcur'], by rw [h3, hpay], ?_⟩
      rw [hpay] at h4
      rw [hres]
      cases hp : d.payloads with
      | nil =>
        rw [hp] at h4
        simpa [abstractDequeue] using h4
      | cons p rest =>
        rw [hp] at h4
        simp only [abstractDequeue] at h4 ⊢
        rw [List.cons_append, h4]
        rfl

/-! ## The claims -/

/-- C1. FIFO order: on a queue opened with `New` over an empty directory, `n` successful
`Enqueue` calls with the payloads `p1..pn` followed by `n + 1` calls of `Dequeue` return
`p1..pn` in that order and then `ErrEmpty` (`n` is below `2^63`, as the length of every
Go slice is). -/
theorem fifo_order (dir : GoString) (d : Dir) (ps : List Bytes)
    (hlist : d.listable = true) (hempty : d.files = [])
    (hlen : ps.length < 2 ^ 63)
    (hok : ∀ r ∈ (enqueueAll ps { dir := dir, entries := [], current := 0 } d).1, r = none) :
    New dir d = (.ok { dir := dir, entries := [], current := 0 }, d) ∧
    (dequeueN (ps.length + 1)
        (enqueueAll ps { dir := dir, entries := [], current := 0 } d).2.1
        (enqueueAll ps { dir := dir, entries := [], current := 0 } d).2.2).1
      = ps.map .ok ++ [.error .ErrEmpty] := by
  refine ⟨New_empty dir hlist hempty, ?_⟩
  have h0 := synced_empty dir hempty
  have hc : (0 : Int) + ps.length ≤ maxInt := by
    unfold maxInt
    have : (ps.length : Int) < 2 ^ 63 := by exact_mod_cast hlen
    omega
  obtain ⟨hs, hp, -, hcur, -⟩ := h0.enqueueAll hc hok
  have hcm : (enqueueAll ps { dir := dir, entries := [], current := 0 } d).2.1.current ≤ maxInt := by
    rw [hcur]; exact hc
  have hnames := congrArg List.length hs.names
  simp only [Dir.names, List.length_map] at hnames
  have hplen := congrArg List.length hp
  simp only [Dir.payloads, List.length_map, hempty, List.nil_append, List.map_nil] at hplen
  have := hs.drain hcm
  rw [← hnames, hplen] at this
  rw [this, hp]
  simp [Dir.payloads, hempty]

/-- C1, witness: the run of the test `TestQueue_Simple`. -/
theorem fifo_order_witness :
    (∀ r ∈ (enqueueAll [ascii "entry 1", ascii "entry 2"] { dir := ascii "/tmp/q", entries := [], current := 0 }
        { listable := true, writable := true, free := 4096, files := [] }).1, r = none) ∧
    (dequeueN 3
        (enqueueAll [ascii "entry 1", ascii "entry 2"] { dir := ascii "/tmp/q", entries := [], current := 0 }
          { listable := true, writable := true, free := 4096, files := [] }).2.1
        (enqueueAll [ascii "entry 1", ascii "entry 2"] { dir := ascii "/tmp/q", entries := [], current := 0 }
          { listable := true, writable := true, free := 4096, files := [] }).2.2).1
      = [.ok (ascii "entry 1"), .ok (ascii "entry 2"), .error .ErrEmpty] :=
  ⟨by decide,
   (fifo_order (ascii "/tmp/q") { listable := true, writable := true, free := 4096, files := [] }
      [ascii "entry 1", ascii "entry 2"] rfl rfl (by decide) (by decide)).2⟩

/-- C2, counterexample. On a file system without free space the first `Enqueue` fails
after `os.WriteFile` has created the file `1`: the first instance has no pending id,
a second `New` on the directory recovers the id 1, and its `Dequeue` returns the
(empty) contents of that file where the first instance reports `ErrEmpty`. -/
theorem recovery_counterexample :
    New (ascii "/tmp/q") (emptyDir 0) = (.ok ⟨ascii "/tmp/q", [], 0⟩, emptyDir 0) ∧
    (Enqueue ⟨ascii "/tmp/q", [], 0⟩ (emptyDir 0) (ascii "p1")).1 = some .writeFile ∧
    (Enqueue ⟨ascii "/tmp/q", [], 0⟩ (emptyDir 0) (ascii "p1")).2.1.entries = [] ∧
    (New (ascii "/tmp/q") (Enqueue ⟨ascii "/tmp/q", [], 0⟩ (emptyDir 0) (ascii "p1")).2.2).1
      = .ok ⟨ascii "/tmp/q", [1], 1⟩ ∧
    (Dequeue (Enqueue ⟨ascii "/tmp/q", [], 0⟩ (emptyDir 0) (ascii "p1")).2.1
      (Enqueue ⟨ascii "/tmp/q", [], 0⟩ (emptyDir 0) (ascii "p1")).2.2).1 = .error .ErrEmpty ∧
    (Dequeue ⟨ascii "/tmp/q", [1], 1⟩
      (Enqueue ⟨ascii "/tmp/q", [], 0⟩ (emptyDir 0) (ascii "p1")).2.2).1 = .ok [] := by
  decide

/-- C2, amended. Starting from `New` over an empty directory, after any sequence of
`Enqueue` and `Dequeue` calls in which no failed `Enqueue` left a file behind (fewer
than `2^63` calls of `Enqueue`), a second `New` on the directory succeeds and recovers
exactly the pending ids of the first instance; it dequeues the same payloads in the
same order as the first instance would, namely the contents of the directory's files,
and then reports `ErrEmpty`. In particular after two successful calls `Enqueue(p1)`,
`Enqueue(p2)` the second instance dequeues `p1`, `p2`, then `ErrEmpty`. -/
theorem recovery_of_clean_run (dir : GoString) (d : Dir) (calls : List Call)
    (hlist : d.listable = true) (hempty : d.files = [])
    (hcount : enqueueCount calls < 2 ^ 63)
    (hclean : cleanRun calls ⟨dir, [], 0⟩ d = true) :
    New dir d = (.ok ⟨dir, [], 0⟩, d) ∧
    (∃ q2 : Queue,
      New dir (run calls ⟨dir, [], 0⟩ d).2 = (.ok q2, (run calls ⟨dir, [], 0⟩ d).2) ∧
      q2.entries = (run calls ⟨dir, [], 0⟩ d).1.entries ∧
      (dequeueN (q2.entries.length + 1) q2 (run calls ⟨dir, [], 0⟩ d).2).1
        = (dequeueN (q2.entries.length + 1) (run calls ⟨dir, [], 0⟩ d).1
            (run calls ⟨dir, [], 0⟩ d).2).1 ∧
      (dequeueN (q2.entries.length + 1) q2 (run calls ⟨dir, [], 0⟩ d).2).1
        = (run calls ⟨dir, [], 0⟩ d).2.payloads.map .ok ++ [.error .ErrEmpty]) ∧
    (∀ p1 p2 : Bytes, (∀ r ∈ (enqueueAll [p1, p2] ⟨dir, [], 0⟩ d).1, r = none) →
      ∃ q2 : Queue,
        New dir (enqueueAll [p1, p2] ⟨dir, [], 0⟩ d).2.2
          = (.ok q2, (enqueueAll [p1, p2] ⟨dir, [], 0⟩ d).2.2) ∧
        (dequeueN 3 q2 (enqueueAll [p1, p2] ⟨dir, [], 0⟩ d).2.2).1
          = [.ok p1, .ok p2, .error .ErrEmpty]) := by
  have h0 := synced_empty dir hempty
  refine ⟨New_empty dir hlist hempty, ?_, ?_⟩
  · have hc : (0 : Int) + enqueueCount calls ≤ maxInt := by
      unfold maxInt
      have : (enqueueCount calls : Int) < 2 ^ 63 := by exact_mod_cast hcount
      omega
    obtain ⟨hs, hcur, hl, -⟩ := h0.run hc hclean
    obtain ⟨q2, hnew, hent, -, hs2, hcur2⟩ := hs.recover hcur (by rw [hl]; exact hlist) dir
    refine ⟨q2, hnew, hent, ?_, hs2.drain hcur2⟩
    rw [hs2.drain hcur2, hent, hs.drain hcur]
  · intro p1 p2 hok
    obtain ⟨hs, hp, hl, hcur, -⟩ := @Synced.enqueueAll [p1, p2] _ _ h0 (by simp [maxInt]) hok
    have hcm : (enqueueAll [p1, p2] ⟨dir, [], 0⟩ d).2.1.current ≤ maxInt := by
      rw [hcur]; simp [maxInt]
    obtain ⟨q2, hnew, hent, -, hs2, hcur2⟩ := hs.recover hcm (by rw [hl]; exact hlist) dir
    refine ⟨q2, hnew, ?_⟩
    have hlen : q2.entries.length = 2 := by
      have h1 := congrArg List.length hs2.names
      have h2 := congrArg List.length hp
      simp only [Dir.names, Dir.payloads, List.length_map, hempty, List.map_nil,
        List.nil_append, List.length_cons, List.length_nil] at h1 h2
      omega
    have := hs2.drain hcur2
    rw [hlen, hp] at this
    simpa [Dir.payloads, hempty] using this

/-- C2, witness: two entries are enqueued, the first is
dequeued, a third is enqueued, and the directory is reopened; and the run of the test
`TestQueue_PersistAndReRead`. -/
theorem recovery_of_clean_run_witness :
    cleanRun [.enqueue (ascii "entry 1"), .enqueue (ascii "entry 2"), .dequeue,
        .enqueue (ascii "entry 3")] ⟨ascii "/tmp/q", [], 0⟩ (emptyDir 4096) = true ∧
    (∃ q2 : Queue,
      New (ascii "/tmp/q") (run [.enqueue (ascii "entry 1"), .enqueue (ascii "entry 2"), .dequeue,
        .enqueue (ascii "entry 3")] ⟨ascii "/tmp/q", [], 0⟩ (emptyDir 4096)).2
        = (.ok q2, (run [.enqueue (ascii "entry 1"), .enqueue (ascii "entry 2"), .dequeue,
        .enqueue (ascii "entry 3")] ⟨ascii "/tmp/q", [], 0⟩ (emptyDir 4096)).2) ∧
      q2.entries = [2, 3]) ∧
    (∃ q2 : Queue,
      New (ascii "/tmp/q")
          (enqueueAll [ascii "entry 1", ascii "entry 2"] ⟨ascii "/tmp/q", [], 0⟩ (emptyDir 4096)).2.2
        = (.ok q2,
          (enqueueAll [ascii "entry 1", ascii "entry 2"] ⟨ascii "/tmp/q", [], 0⟩ (emptyDir 4096)).2.2) ∧
      (dequeueN 3 q2
          (enqueueAll [ascii "entry 1", ascii "entry 2"] ⟨ascii "/tmp/q", [], 0⟩ (emptyDir 4096)).2.2).1
        = [.ok (ascii "entry 1"), .ok (ascii "entry 2"), .error .ErrEmpty]) :=
  ⟨by decide,
   (recovery_of_clean_run (ascii "/tmp/q") (emptyDir 4096)
      [.enqueue (ascii "entry 1"), .enqueue (ascii "entry 2"), .dequeue, .enqueue (ascii "entry 3")]
      rfl rfl (by decide) (by decide)).2.1.imp (fun _ h => ⟨h.1, h.2.1.trans (by decide)⟩),
   (recovery_of_clean_run (ascii "/tmp/q") (emptyDir 4096)
      [.enqueue (ascii "entry 1"), .enqueue (ascii "entry 2"), .dequeue, .enqueue (ascii "entry 3")]
      rfl rfl (by decide) (by decide)).2.2 (ascii "entry 1") (ascii "entry 2") (by decide)⟩

/-- C3. Round trip: for every payload (any byte sequence) and every queue with no
pending entries whose directory holds no file under the id that `Enqueue` assigns (so
it is in the states reached from `New`, by `fresh_of_run`), a successful
`Enqueue(payload)` followed by `Dequeue` returns exactly `payload`, and the entry's file
is no longer in the directory; likewise `EnqueueString(s)` followed by `DequeueString`
returns `s` for every string `s`. -/
theorem round_trip (q : Queue) (d : Dir) (payload : Bytes) (s : GoString)
    (hempty : q.entries = [])
    (hfresh : d.lookup (Itoa (wrapInt (q.current + 1))) = none) :
    ((Enqueue q d payload).1 = none →
      (Dequeue (Enqueue q d payload).2.1 (Enqueue q d payload).2.2).1 = .ok payload ∧
      (Dequeue (Enqueue q d payload).2.1 (Enqueue q d payload).2.2).2.2.lookup
        (Itoa (wrapInt (q.current + 1))) = none) ∧
    ((EnqueueString q d s).1 = none →
      (DequeueString (EnqueueString q d s).2.1 (EnqueueString q d s).2.2).1 = .ok s) := by
  have key : ∀ b : Bytes, (Enqueue q d b).1 = none →
      Dequeue (Enqueue q d b).2.1 (Enqueue q d b).2.2 = (.ok b,
        { q with entries := [], current := wrapInt (q.current + 1) },
        { d with free := d.free - b.length + b.length }) := by
    intro b hok
    obtain ⟨hw, -, heq⟩ := Enqueue_fresh_ok hfresh hok
    rw [heq]
    have hnot : ∀ e ∈ d.files, e.1 ≠ Itoa (wrapInt (q.current + 1)) := by
      intro e he heq'
      rw [lookup_eq_none_iff] at hfresh
      exact hfresh (heq' ▸ List.mem_map_of_mem _ he)
    exact @Dequeue_fresh_entry
      ⟨q.dir, q.entries ++ [wrapInt (q.current + 1)], wrapInt (q.current + 1)⟩
      ⟨d.listable, d.writable, d.free - b.length,
        d.files ++ [(Itoa (wrapInt (q.current + 1)), ⟨b, true, true⟩)]⟩
      (wrapInt (q.current + 1)) ⟨b, true, true⟩ d.files
      (by simp only [hempty, List.nil_append]) rfl hnot rfl hw
  refine ⟨fun hok => ?_, fun hok => ?_⟩
  · rw [key payload hok]
    exact ⟨rfl, hfresh⟩
  · unfold DequeueString EnqueueString at *
    rw [key _ hok]
    rfl

/-- C3, witness: a payload with zero bytes and a string, on a queue over
a directory that holds a file `README`. -/
theorem round_trip_witness :
    (Enqueue ⟨ascii "/tmp/q", [], 7⟩
      { listable := true, writable := true, free := 64,
        files := [(ascii "README", ⟨ascii "notes", true, true⟩)] } [0, 255, 0]).1 = none ∧
    (Dequeue
      (Enqueue ⟨ascii "/tmp/q", [], 7⟩
        { listable := true, writable := true, free := 64,
          files := [(ascii "README", ⟨ascii "notes", true, true⟩)] } [0, 255, 0]).2.1
      (Enqueue ⟨ascii "/tmp/q", [], 7⟩
        { listable := true, writable := true, free := 64,
          files := [(ascii "README", ⟨ascii "notes", true, true⟩)] } [0, 255, 0]).2.2).1
      = .ok [0, 255, 0] ∧
    (DequeueString
      (EnqueueString ⟨ascii "/tmp/q", [], 7⟩
        { listable := true, writable := true, free := 64,
          files := [(ascii "README", ⟨ascii "notes", true, true⟩)] } (ascii "my entry")).2.1
      (EnqueueString ⟨ascii "/tmp/q", [], 7⟩
        { listable := true, writable := true, free := 64,
          files := [(ascii "README", ⟨ascii "notes", true, true⟩)] } (ascii "my entry")).2.2).1
      = .ok (ascii "my entry") :=
  ⟨by decide,
   ((round_trip ⟨ascii "/tmp/q", [], 7⟩
      { listable := true, writable := true, free := 64,
        files := [(ascii "README", ⟨ascii "notes", true, true⟩)] } [0, 255, 0] (ascii "my entry")
      rfl (by decide)).1 (by decide)).1,
   (round_trip ⟨ascii "/tmp/q", [], 7⟩
      { listable := true, writable := true, free := 64,
        files := [(ascii "README", ⟨ascii "notes", true, true⟩)] } [0, 255, 0] (ascii "my entry")
      rfl (by decide)).2 (by decide)⟩

/-- C4. Empty semantics: `Dequeue` returns `ErrEmpty` if and only if the pending id
list is empty, and in that case the queue (pending list and counter) and the
directory (every file) are unchanged; `Dequeue` on a queue newly constructed by `New`
over an empty directory returns `ErrEmpty`. -/
theorem empty_semantics (q : Queue) (d : Dir) (dir : GoString) :
    ((Dequeue q d).1 = .error .ErrEmpty ↔ q.entries = []) ∧
    (q.entries = [] → Dequeue q d = (.error .ErrEmpty, q, d)) ∧
    (d.listable = true → d.files = [] →
      ∃ q0 : Queue, New dir d = (.ok q0, d) ∧ Dequeue q0 d = (.error .ErrEmpty, q0, d)) := by
  refine ⟨⟨fun h => ?_, fun h => by rw [Dequeue_nil d h]⟩, Dequeue_nil d, fun hl hf => ?_⟩
  · cases he : q.entries with
    | nil => rfl
    | cons id rest =>
      exfalso
      rw [Dequeue_cons d he] at h
      cases hr : (ReadFile d (Itoa id)).1 with
      | error err =>
        rw [hr] at h
        have := ReadFile_error hr
        subst this
        simp at h
      | ok b =>
        rw [hr] at h
        rcases hrm : Remove d (Itoa id) with ⟨_ | err, d2⟩
        · rw [hrm] at h
          simp at h
        · rw [hrm] at h
          have := (Remove_error (congrArg Prod.fst hrm)).1
          subst this
          simp at h
  · exact ⟨_, New_empty dir hl hf, Dequeue_nil d rfl⟩

/-- C4, witness: a queue with no pending id over a directory that
holds a file, and a queue newly constructed over an empty directory. -/
theorem empty_semantics_witness :
    Dequeue ⟨ascii "/tmp/q", [], 4⟩
        { listable := true, writable := true, free := 8,
          files := [(ascii "4", ⟨ascii "left", true, true⟩)] }
      = (.error .ErrEmpty, ⟨ascii "/tmp/q", [], 4⟩,
        { listable := true, writable := true, free := 8,
          files := [(ascii "4", ⟨ascii "left", true, true⟩)] }) ∧
    (∃ q0 : Queue, New (ascii "/tmp/q") (emptyDir 8) = (.ok q0, emptyDir 8) ∧
      Dequeue q0 (emptyDir 8) = (.error .ErrEmpty, q0, emptyDir 8)) :=
  ⟨(empty_semantics ⟨ascii "/tmp/q", [], 4⟩
      { listable := true, writable := true, free := 8,
        files := [(ascii "4", ⟨ascii "left", true, true⟩)] } (ascii "/tmp/q")).2.1 rfl,
   (empty_semantics ⟨ascii "/tmp/q", [], 0⟩ (emptyDir 8) (ascii "/tmp/q")).2.2 rfl rfl⟩

/-- C5. Recovery definition: for every listable directory `New` returns a queue whose
pending id list is the ascending sort of the integers parsed from the directory's file
names (sorted, with exactly the parsed integers as elements, each as often as names
parse to it; a name that does not parse contributes nothing), and whose counter is
the last element of that list, which is its largest, or 0 when the list is empty.
The directory is unchanged. -/
theorem recovery_definition (dir : GoString) (d : Dir) (hlist : d.listable = true) :
    ∃ q : Queue, New dir d = (.ok q, d) ∧ q.dir = dir ∧
      q.entries = sortInts (d.names.filterMap Atoi) ∧
      q.entries.Sorted (· ≤ ·) ∧
      q.entries.Perm (d.names.filterMap Atoi) ∧
      (∀ k, k ∈ q.entries ↔ ∃ name ∈ d.names, Atoi name = some k) ∧
      q.current = (q.entries.getLast?).getD 0 ∧
      (q.entries = [] → q.current = 0) ∧
      (q.entries ≠ [] → q.current ∈ q.entries ∧ ∀ k ∈ q.entries, k ≤ q.current) := by
  obtain ⟨q, hnew, hmem, hnil, hcons⟩ := New_counter dir hlist
  have hq := hnew
  rw [New_listable dir hlist] at hq
  simp only [Prod.mk.injEq, Except.ok.injEq, and_true] at hq
  refine ⟨q, hnew, ?_, ?_, ?_, ?_, hmem, ?_, hnil, hcons⟩
  · rw [← hq]
  · rw [← hq]
  · rw [← hq]
    exact sortInts_sorted _
  · rw [← hq]
    exact sortInts_perm _
  · rw [← hq]

/-- C5, witness: a directory with the files `7`, `README`, `+3`
and `10`. -/
theorem recovery_definition_witness :
    ∃ q : Queue,
      New (ascii "/tmp/q")
        { listable := true, writable := true, free := 8,
          files := [(ascii "7", ⟨ascii "c", true, true⟩), (ascii "README", ⟨[], true, true⟩),
                    (ascii "+3", ⟨ascii "a", true, true⟩), (ascii "10", ⟨ascii "d", true, true⟩)] }
        = (.ok q,
          { listable := true, writable := true, free := 8,
            files := [(ascii "7", ⟨ascii "c", true, true⟩), (ascii "README", ⟨[], true, true⟩),
                      (ascii "+3", ⟨ascii "a", true, true⟩), (ascii "10", ⟨ascii "d", true, true⟩)] }) ∧
      q.entries = [3, 7, 10] ∧ q.current = 10 :=
  (recovery_definition (ascii "/tmp/q")
    { listable := true, writable := true, free := 8,
      files := [(ascii "7", ⟨ascii "c", true, true⟩), (ascii "README", ⟨[], true, true⟩),
                (ascii "+3", ⟨ascii "a", true, true⟩), (ascii "10", ⟨ascii "d", true, true⟩)] }
    rfl).imp
    (fun _ h => ⟨h.1, h.2.2.1.trans (by decide),
      h.2.2.2.2.2.2.1.trans (by rw [h.2.2.1]; decide)⟩)

/-- C6, counterexample. Over a directory holding an entry named 9223372036854775807
(the largest `int`), `New` recovers that id as the counter, and the first `Enqueue`
increments it to -9223372036854775808: the file is written under an id that is not
greater than the integer parsed at recovery. -/
theorem id_after_recovery_counterexample :
    New (ascii "/tmp/q")
        { listable := true, writable := true, free := 64,
          files := [(ascii "9223372036854775807", ⟨ascii "old", true, true⟩)] }
      = (.ok ⟨ascii "/tmp/q", [9223372036854775807], 9223372036854775807⟩,
        { listable := true, writable := true, free := 64,
          files := [(ascii "9223372036854775807", ⟨ascii "old", true, true⟩)] }) ∧
    Atoi (ascii "9223372036854775807") = some 9223372036854775807 ∧
    Enqueue ⟨ascii "/tmp/q", [9223372036854775807], 9223372036854775807⟩
        { listable := true, writable := true, free := 64,
          files := [(ascii "9223372036854775807", ⟨ascii "old", true, true⟩)] } (ascii "new")
      = (none,
        ⟨ascii "/tmp/q", [9223372036854775807, -9223372036854775808], -9223372036854775808⟩,
        { listable := true, writable := true, free := 61,
          files := [(ascii "9223372036854775807", ⟨ascii "old", true, true⟩),
                    (ascii "-9223372036854775808", ⟨ascii "new", true, true⟩)] }) ∧
    ¬ (9223372036854775807 <
      (Enqueue ⟨ascii "/tmp/q", [9223372036854775807], 9223372036854775807⟩
        { listable := true, writable := true, free := 64,
          files := [(ascii "9223372036854775807", ⟨ascii "old", true, true⟩)] }
        (ascii "new")).2.1.current) := by
  decide

/-- C6, amended. For every listable directory in which no file name parses to the
largest `int` 9223372036854775807, the first `Enqueue` after `New` assigns the id
`counter + 1`, which is strictly greater than every integer parsed from a file name
present at recovery: exactly the largest one plus 1, or 1 when there is none; when the
call succeeds the file named by the decimal form of that id holds the payload and the
id is appended to the pending list. -/
theorem id_after_recovery (dir : GoString) (d : Dir) (b : Bytes) (hlist : d.listable = true)
    (hmax : ∀ name ∈ d.names, Atoi name ≠ some maxInt) :
    ∃ q : Queue, New dir d = (.ok q, d) ∧
      (Enqueue q d b).2.1.current = q.current + 1 ∧
      (∀ name ∈ d.names, ∀ k, Atoi name = some k → k < (Enqueue q d b).2.1.current) ∧
      (∀ m, (∃ name ∈ d.names, Atoi name = some m) →
        (∀ name ∈ d.names, ∀ k, Atoi name = some k → k ≤ m) →
        (Enqueue q d b).2.1.current = m + 1) ∧
      ((∀ name ∈ d.names, Atoi name = none) → (Enqueue q d b).2.1.current = 1) ∧
      ((Enqueue q d b).1 = none →
        (Enqueue q d b).2.1.entries = q.entries ++ [q.current + 1] ∧
        ∃ f : File, (Enqueue q d b).2.2.lookup (Itoa (q.current + 1)) = some f ∧ f.data = b) := by
  obtain ⟨q, hnew, hmem, hnil, hcons⟩ := New_counter dir hlist
  have hrange : ∀ k ∈ q.entries, minInt ≤ k ∧ k < maxInt := by
    intro k hk
    obtain ⟨name, hname, hk'⟩ := (hmem k).1 hk
    have := Atoi_range hk'
    refine ⟨this.1, lt_of_le_of_ne this.2 ?_⟩
    rintro rfl
    exact hmax name hname hk'
  have hcur : minInt ≤ q.current ∧ q.current < maxInt := by
    by_cases he : q.entries = []
    · rw [hnil he]; decide
    · exact hrange _ (hcons he).1
  have hwrap : wrapInt (q.current + 1) = q.current + 1 :=
    wrapInt_of_range (by have := hcur.1; omega) (by have := hcur.2; omega)
  have hnext : (Enqueue q d b).2.1.current = q.current + 1 := by
    rw [Enqueue_current, hwrap]
  refine ⟨q, hnew, hnext, ?_, ?_, ?_, ?_⟩
  · intro name hname k hk
    have hk' : k ∈ q.entries := (hmem k).2 ⟨name, hname, hk⟩
    have := (hcons (List.ne_nil_of_mem hk')).2 k hk'
    omega
  · intro m hm hle
    obtain ⟨name, hname, hk⟩ := hm
    have hm' : m ∈ q.entries := (hmem m).2 ⟨name, hname, hk⟩
    have hne := List.ne_nil_of_mem hm'
    have h1 := (hcons hne).2 m hm'
    obtain ⟨name2, hname2, hk2⟩ := (hmem q.current).1 (hcons hne).1
    have h2 := hle name2 hname2 _ hk2
    omega
  · intro hnone
    have he : q.entries = [] := by
      apply List.eq_nil_iff_forall_not_mem.2
      intro k hk
      obtain ⟨name, hname, hk'⟩ := (hmem k).1 hk
      rw [hnone name hname] at hk'
      simp at hk'
    rw [hnext, hnil he]
    rfl
  · intro hok
    obtain ⟨hq, hf⟩ := Enqueue_ok hok
    rw [hwrap] at hq hf
    rw [hq]
    exact ⟨rfl, hf⟩

/-- C6, witness: a directory holding entries named 7 and 3. The
recovered pending list is `[3, 7]` and the next entry is written under id 8. -/
theorem id_after_recovery_witness :
    (∀ name ∈ dirThreeSeven.names, Atoi name ≠ some maxInt) ∧
    ∃ q : Queue,
      New (ascii "/tmp/q") dirThreeSeven = (.ok q, dirThreeSeven) ∧
      q.entries = [3, 7] ∧
      (Enqueue q dirThreeSeven (ascii "h")).2.1.current = 8 :=
  ⟨by decide,
   (id_after_recovery (ascii "/tmp/q") dirThreeSeven (ascii "h") rfl (by decide)).imp
    (fun q h =>
      have hq : q = ⟨ascii "/tmp/q", [3, 7], 7⟩ := by
        have h1 := h.1
        rw [show New (ascii "/tmp/q") dirThreeSeven
          = (.ok ⟨ascii "/tmp/q", [3, 7], 7⟩, dirThreeSeven) from by decide] at h1
        simp only [Prod.mk.injEq, Except.ok.injEq, and_true] at h1
        exact h1.symm
      ⟨h.1, by rw [hq], by rw [h.2.2.2.1 7 ⟨ascii "7", by decide, by decide⟩ (by decide)]; rfl⟩)⟩

/-- C7. Construction failure: `New` returns an error if and only if the directory
cannot be listed; whenever the listing succeeds `New` succeeds, whatever the file
names are; and `New` leaves the directory as it was. -/
theorem construction_failure (dir : GoString) (d : Dir) :
    ((∃ err, (New dir d).1 = .error err) ↔ d.listable = false) ∧
    (d.listable = true → ∃ q : Queue, (New dir d).1 = .ok q) ∧
    (New dir d).2 = d := by
  cases hl : d.listable with
  | false =>
    rw [New_not_listable dir hl]
    exact ⟨⟨fun _ => rfl, fun _ => ⟨_, rfl⟩⟩, fun h => absurd h (by simp), rfl⟩
  | true =>
    rw [New_listable dir hl]
    exact ⟨⟨fun ⟨_, h⟩ => by simp at h, fun h => absurd h (by simp)⟩, fun _ => ⟨_, rfl⟩, rfl⟩

/-- C7, witness: `New` succeeds over a listable directory that
holds names which are no integers. -/
theorem construction_failure_witness :
    readOnlyDir.listable = true ∧ ∃ q : Queue, (New (ascii "/tmp/q") readOnlyDir).1 = .ok q :=
  ⟨rfl, (construction_failure (ascii "/tmp/q") readOnlyDir).2.1 rfl⟩

/-- C8. Enqueue failure (gap): when the file write of `Enqueue` fails, `Enqueue` returns
the error, the counter has been incremented by 1 (the increment `q.current++` of the
Go type `int`) and the pending id list is unchanged; a following successful `Enqueue`
uses the next id, old counter + 2, which differs from the failed id; and the failed id
is assigned to no entry by the following calls (fewer than `2^64` calls of `Enqueue`).
While old counter + 2 is in the range of `int` the two ids are those integers. -/
theorem enqueue_failure_gap (q : Queue) (d : Dir) (b : Bytes) (err : Err)
    (hwrite : (WriteFile d (Itoa (wrapInt (q.current + 1))) b).1 = some err) :
    (Enqueue q d b).1 = some err ∧
    (Enqueue q d b).2.1.current = wrapInt (q.current + 1) ∧
    (Enqueue q d b).2.1.entries = q.entries ∧
    (∀ b2 : Bytes, (Enqueue (Enqueue q d b).2.1 (Enqueue q d b).2.2 b2).1 = none →
      (Enqueue (Enqueue q d b).2.1 (Enqueue q d b).2.2 b2).2.1.current = wrapInt (q.current + 2) ∧
      (Enqueue (Enqueue q d b).2.1 (Enqueue q d b).2.2 b2).2.1.entries
        = q.entries ++ [wrapInt (q.current + 2)] ∧
      wrapInt (q.current + 2) ≠ wrapInt (q.current + 1)) ∧
    (∀ calls : List Call, enqueueCount calls < 2 ^ 64 →
      wrapInt (q.current + 1) ∉ assignedIds calls (Enqueue q d b).2.1 (Enqueue q d b).2.2) ∧
    (minInt ≤ q.current → q.current + 2 ≤ maxInt →
      wrapInt (q.current + 1) = q.current + 1 ∧ wrapInt (q.current + 2) = q.current + 2) := by
  have hfail : (Enqueue q d b).1 = some err := by rw [(Enqueue_result q d b).1, hwrite]
  have hq := Enqueue_fail hfail
  have h12 : wrapInt (wrapInt (q.current + 1) + 1) = wrapInt (q.current + 2) := by
    rw [wrapInt_add_left]; ring_nf
  refine ⟨hfail, by rw [hq], by rw [hq], ?_, ?_, ?_⟩
  · intro b2 hok
    obtain ⟨hq2, -⟩ := Enqueue_ok hok
    rw [hq2, hq]
    simp only [h12]
    refine ⟨trivial, trivial, ?_⟩
    have := wrapInt_ne_of_lt (q.current + 1) 1 (by decide) (by decide)
    rwa [show q.current + 1 + 1 = q.current + 2 by ring] at this
  · intro calls hcount hmem
    obtain ⟨j, hj1, hj2, hj3⟩ := assignedIds_spec calls _ _ _ hmem
    rw [hq] at hj3
    simp only at hj3
    rw [wrapInt_add_left] at hj3
    have hj : (j : Int) < 18446744073709551616 := by
      have : j < 2 ^ 64 := lt_of_le_of_lt hj2 hcount
      norm_num at this
      exact_mod_cast this
    exact wrapInt_ne_of_lt (q.current + 1) j (by exact_mod_cast hj1) hj hj3.symm
  · intro hlo hhi
    unfold minInt at hlo
    unfold maxInt at hhi
    exact ⟨wrapInt_of_range (by unfold minInt; omega) (by unfold maxInt; omega),
      wrapInt_of_range (by unfold minInt; omega) (by unfold maxInt; omega)⟩

/-- C8, witness: with 3 bytes left on the file system
`Enqueue` of 7 bytes fails under id 1, and the following `Enqueue` of the empty payload
succeeds under id 2. -/
theorem enqueue_failure_gap_witness :
    (WriteFile (emptyDir 3) (Itoa (wrapInt (0 + 1))) (ascii "entry 1")).1 = some .writeFile ∧
    (Enqueue ⟨ascii "/tmp/q", [], 0⟩ (emptyDir 3) (ascii "entry 1")).2.1.current = 1 ∧
    (Enqueue (Enqueue ⟨ascii "/tmp/q", [], 0⟩ (emptyDir 3) (ascii "entry 1")).2.1
      (Enqueue ⟨ascii "/tmp/q", [], 0⟩ (emptyDir 3) (ascii "entry 1")).2.2 []).1 = none ∧
    (Enqueue (Enqueue ⟨ascii "/tmp/q", [], 0⟩ (emptyDir 3) (ascii "entry 1")).2.1
      (Enqueue ⟨ascii "/tmp/q", [], 0⟩ (emptyDir 3) (ascii "entry 1")).2.2 []).2.1.entries = [2] :=
  ⟨by decide,
   (enqueue_failure_gap ⟨ascii "/tmp/q", [], 0⟩ (emptyDir 3) (ascii "entry 1") .writeFile
      (by decide)).2.1.trans (by decide),
   by decide,
   ((enqueue_failure_gap ⟨ascii "/tmp/q", [], 0⟩ (emptyDir 3) (ascii "entry 1") .writeFile
      (by decide)).2.2.2.1 [] (by decide)).2.1.trans (by decide)⟩

/-- C9. Dequeue failure atomicity: when the pending list is non-empty and either the
read of the first entry's file fails, or the read succeeds but the deletion fails,
`Dequeue` returns that error (which is not `ErrEmpty`) and no payload, and the queue
(pending id list and counter) and the directory are unchanged; a retry attempts the
same id against the same directory and fails identically. -/
theorem dequeue_failure_atomic (q : Queue) (d : Dir) (id : Int) (rest : List Int) (err : Err)
    (he : q.entries = id :: rest)
    (hfail : (ReadFile d (Itoa id)).1 = .error err ∨
      ((∃ b : Bytes, (ReadFile d (Itoa id)).1 = .ok b) ∧ (Remove d (Itoa id)).1 = some err)) :
    Dequeue q d = (.error err, q, d) ∧ err ≠ .ErrEmpty ∧
    Dequeue (Dequeue q d).2.1 (Dequeue q d).2.2 = (.error err, q, d) := by
  have key : Dequeue q d = (.error err, q, d) ∧ err ≠ .ErrEmpty := by
    rw [Dequeue_cons d he]
    rcases hfail with hr | ⟨⟨b, hr⟩, hrm⟩
    · rw [hr]
      have := ReadFile_error hr
      subst this
      exact ⟨rfl, by decide⟩
    · rw [hr]
      obtain ⟨herr, hd⟩ := Remove_error hrm
      rcases hrem : Remove d (Itoa id) with ⟨r, d2⟩
      rw [hrem] at hrm hd
      simp only at hrm hd
      subst hrm hd herr
      exact ⟨rfl, by decide⟩
  refine ⟨key.1, key.2, ?_⟩
  rw [key.1]
  exact key.1

/-- C9, witness: over a directory that holds only the file
`05` the recovered id is 5 and the read of the file `5` fails; over a directory that
cannot be written the file `5` is read but its deletion fails. -/
theorem dequeue_failure_atomic_witness :
    (New (ascii "/tmp/q")
        { listable := true, writable := true, free := 64,
          files := [(ascii "05", ⟨ascii "e", true, true⟩)] }).1
      = .ok ⟨ascii "/tmp/q", [5], 5⟩ ∧
    Dequeue ⟨ascii "/tmp/q", [5], 5⟩
        { listable := true, writable := true, free := 64,
          files := [(ascii "05", ⟨ascii "e", true, true⟩)] }
      = (.error .readFile, ⟨ascii "/tmp/q", [5], 5⟩,
        { listable := true, writable := true, free := 64,
          files := [(ascii "05", ⟨ascii "e", true, true⟩)] }) ∧
    (New (ascii "/tmp/q") readOnlyDir).1 = .ok ⟨ascii "/tmp/q", [5], 5⟩ ∧
    Dequeue ⟨ascii "/tmp/q", [5], 5⟩ readOnlyDir
      = (.error .remove, ⟨ascii "/tmp/q", [5], 5⟩, readOnlyDir) :=
  ⟨by decide,
   (dequeue_failure_atomic ⟨ascii "/tmp/q", [5], 5⟩
      { listable := true, writable := true, free := 64,
        files := [(ascii "05", ⟨ascii "e", true, true⟩)] } 5 [] .readFile rfl
      (Or.inl (by decide))).1,
   by decide,
   (dequeue_failure_atomic ⟨ascii "/tmp/q", [5], 5⟩ readOnlyDir 5 [] .remove rfl
      (Or.inr ⟨⟨ascii "e", by decide⟩, by decide⟩)).1⟩

/-- C10. Dequeue success effect: when `Dequeue` succeeds it returns the contents that
the file named by the decimal form of the first pending id had before the call, that
file is no longer in the directory, the first element is removed from the pending id
list, and the rest of the list, the counter and every other file are unchanged. -/
theorem dequeue_success_effect (q : Queue) (d : Dir) (b : Bytes)
    (hok : (Dequeue q d).1 = .ok b) :
    ∃ (id : Int) (rest : List Int) (f : File),
      q.entries = id :: rest ∧ d.lookup (Itoa id) = some f ∧ f.data = b ∧
      (Dequeue q d).2.1 = { q with entries := rest } ∧
      (Dequeue q d).2.1.current = q.current ∧
      (Dequeue q d).2.2.lookup (Itoa id) = none ∧
      (∀ name : GoString, name ≠ Itoa id → (Dequeue q d).2.2.lookup name = d.lookup name) ∧
      (Dequeue q d).2.2.listable = d.listable ∧ (Dequeue q d).2.2.writable = d.writable := by
  obtain ⟨id, rest, f, he, hlook, hdata, hd⟩ := Dequeue_ok hok
  rw [hd]
  refine ⟨id, rest, f, he, hlook, hdata, rfl, rfl, ?_,
    fun name hne => lookup_erase_ne d (Itoa id) name hne _ _, rfl, rfl⟩
  unfold Dir.lookup Dir.erase
  simp [List.find?_eq_none]

/-- C10, witness: the first `Dequeue` over the directory with
the entries 3 and 7 returns the contents of the file `3` and leaves the file `7`. -/
theorem dequeue_success_effect_witness :
    (Dequeue ⟨ascii "/tmp/q", [3, 7], 7⟩ dirThreeSeven).1 = .ok (ascii "c") ∧
    ∃ (id : Int) (rest : List Int) (f : File),
      ([3, 7] : List Int) = id :: rest ∧ dirThreeSeven.lookup (Itoa id) = some f ∧
      f.data = ascii "c" ∧
      (Dequeue ⟨ascii "/tmp/q", [3, 7], 7⟩ dirThreeSeven).2.1 = ⟨ascii "/tmp/q", rest, 7⟩ ∧
      (Dequeue ⟨ascii "/tmp/q", [3, 7], 7⟩ dirThreeSeven).2.2.lookup (Itoa id) = none :=
  ⟨by decide,
   (dequeue_success_effect ⟨ascii "/tmp/q", [3, 7], 7⟩ dirThreeSeven (ascii "c") (by decide)).imp
    (fun _ h => h.imp (fun _ h => h.imp (fun _ h => ⟨h.1, h.2.1, h.2.2.1, h.2.2.2.1, h.2.2.2.2.2.1⟩)))⟩

/-- C11. Enqueue success effect: when `Enqueue(payload)` succeeds, the counter is the
old counter plus 1 (in the arithmetic of the Go type `int`, so the integer
`old counter + 1` while that is in the range of `int`), the directory contains a file
named by the decimal representation of the new counter whose contents are exactly
`payload`, the new counter is appended at the end of the pending id list, whose earlier
elements are unchanged, and every other file of the directory is unchanged. -/
theorem enqueue_success_effect (q : Queue) (d : Dir) (payload : Bytes)
    (hok : (Enqueue q d payload).1 = none) :
    (Enqueue q d payload).2.1.current = wrapInt (q.current + 1) ∧
    (minInt ≤ q.current → q.current < maxInt →
      (Enqueue q d payload).2.1.current = q.current + 1) ∧
    (∃ f : File, (Enqueue q d payload).2.2.lookup (Itoa (Enqueue q d payload).2.1.current) = some f ∧
      f.data = payload) ∧
    (Enqueue q d payload).2.1.entries = q.entries ++ [(Enqueue q d payload).2.1.current] ∧
    (Enqueue q d payload).2.1.dir = q.dir ∧
    (∀ name : GoString, name ≠ Itoa (Enqueue q d payload).2.1.current →
      (Enqueue q d payload).2.2.lookup name = d.lookup name) := by
  obtain ⟨hq, hf⟩ := Enqueue_ok hok
  have hc := Enqueue_current q d payload
  refine ⟨hc, fun hlo hhi => ?_, ?_, ?_, Enqueue_dir q d payload, ?_⟩
  · rw [hc]
    exact wrapInt_of_range (by unfold minInt at *; omega) (by omega)
  · rw [hc]
    exact hf
  · rw [hc, hq]
  · rw [hc]
    exact fun name hne => Enqueue_lookup_ne q d payload name hne

/-- C11, witness: `Enqueue` over the directory with the entries 7 and 3 writes the
file `8` and leaves the file `3` as it was. -/
theorem enqueue_success_effect_witness :
    (Enqueue ⟨ascii "/tmp/q", [3, 7], 7⟩ dirThreeSeven (ascii "h")).1 = none ∧
    (Enqueue ⟨ascii "/tmp/q", [3, 7], 7⟩ dirThreeSeven (ascii "h")).2.1
      = ⟨ascii "/tmp/q", [3, 7, 8], 8⟩ ∧
    (Enqueue ⟨ascii "/tmp/q", [3, 7], 7⟩ dirThreeSeven (ascii "h")).2.2.lookup (ascii "3")
      = dirThreeSeven.lookup (ascii "3") :=
  ⟨by decide, by decide,
   (enqueue_success_effect ⟨ascii "/tmp/q", [3, 7], 7⟩ dirThreeSeven (ascii "h")
      (by decide)).2.2.2.2.2 (ascii "3") (by decide)⟩

/-- C12. Non-numeric filename tolerance: for every directory, a file whose name
`strconv.Atoi` does not parse contributes no id to the pending list built by `New`
(the result of `New` is the same without the file, and every recovered id is parsed
from another name), and its presence and contents are unchanged by every `Enqueue` and
every `Dequeue`, whether the call succeeds or fails (the pending ids are values of the
Go type `int`). -/
theorem non_numeric_tolerance (dir : GoString) (q : Queue) (d : Dir) (name : GoString) (b : Bytes)
    (hname : Atoi name = none)
    (hint : ∀ id ∈ q.entries, minInt ≤ id ∧ id ≤ maxInt) :
    (New dir { d with files := d.erase name }).1 = (New dir d).1 ∧
    (∀ q0 : Queue, (New dir d).1 = .ok q0 →
      ∀ k ∈ q0.entries, ∃ other ∈ d.names, other ≠ name ∧ Atoi other = some k) ∧
    (Enqueue q d b).2.2.lookup name = d.lookup name ∧
    (Dequeue q d).2.2.lookup name = d.lookup name := by
  refine ⟨New_erase dir d name hname, ?_, ?_, ?_⟩
  · intro q0 hq0 k hk
    cases hl : d.listable with
    | false => rw [New_not_listable dir hl] at hq0; simp at hq0
    | true =>
      obtain ⟨q1, hnew, hmem, -, -⟩ := New_counter dir hl
      rw [hnew] at hq0
      simp only [Except.ok.injEq] at hq0
      subst hq0
      obtain ⟨other, hother, hk'⟩ := (hmem k).1 hk
      refine ⟨other, hother, ?_, hk'⟩
      rintro rfl
      rw [hname] at hk'
      simp at hk'
  · apply Enqueue_lookup_ne
    intro heq
    have hr := wrapInt_range (q.current + 1)
    rw [heq, Atoi_Itoa _ hr.1 hr.2] at hname
    simp at hname
  · apply Dequeue_lookup_ne
    intro id hid heq
    have hr := hint id (List.mem_of_mem_head? hid)
    rw [heq, Atoi_Itoa _ hr.1 hr.2] at hname
    simp at hname

/-- C12, witness: over a directory with the files `1`, `README` and `2`, `New`
recovers the ids 1 and 2, and `Enqueue` and `Dequeue` leave `README` as it was. -/
theorem non_numeric_tolerance_witness :
    Atoi (ascii "README") = none ∧
    (New (ascii "/tmp/q") dirReadme).1 = .ok ⟨ascii "/tmp/q", [1, 2], 2⟩ ∧
    (Enqueue ⟨ascii "/tmp/q", [1, 2], 2⟩ dirReadme (ascii "c")).2.2.lookup (ascii "README")
      = dirReadme.lookup (ascii "README") ∧
    (Dequeue ⟨ascii "/tmp/q", [1, 2], 2⟩ dirReadme).2.2.lookup (ascii "README")
      = dirReadme.lookup (ascii "README") :=
  ⟨by decide, by decide,
   (non_numeric_tolerance (ascii "/tmp/q") ⟨ascii "/tmp/q", [1, 2], 2⟩ dirReadme (ascii "README")
      (ascii "c") (by decide) (by decide)).2.2.1,
   (non_numeric_tolerance (ascii "/tmp/q") ⟨ascii "/tmp/q", [1, 2], 2⟩ dirReadme (ascii "README")
      (ascii "c") (by decide) (by decide)).2.2.2⟩

/-- C13, counterexample. Over a directory holding an entry named -5, `strconv.Atoi`
parses the name and `New` returns the pending list `[-5]`, whose id is negative. -/
theorem signed_names_counterexample :
    Atoi (ascii "-5") = some (-5) ∧
    New (ascii "/tmp/q") dirMinusFive = (.ok ⟨ascii "/tmp/q", [-5], -5⟩, dirMinusFive) ∧
    ¬ (∀ id ∈ (⟨ascii "/tmp/q", [-5], -5⟩ : Queue).entries, 0 ≤ id) := by
  decide

/-- C13, amended. `New` parses each file name with `strconv.Atoi`, as a base-10 integer
with an optional sign, and skips every name that it does not parse: every id in the
pending list returned by `New` is an integer of the range of `int` parsed from a file
name, and it is non-negative unless that name begins with a minus sign; over a
directory without such a name every id is non-negative. -/
theorem signed_names (dir : GoString) (d : Dir) (hlist : d.listable = true) :
    ∃ q : Queue, New dir d = (.ok q, d) ∧
      (∀ k, k ∈ q.entries ↔ ∃ name ∈ d.names, Atoi name = some k) ∧
      (∀ id ∈ q.entries, minInt ≤ id ∧ id ≤ maxInt) ∧
      (∀ id ∈ q.entries, id < 0 →
        ∃ name ∈ d.names, Atoi name = some id ∧ name.head? = some 45) ∧
      ((∀ name ∈ d.names, name.head? ≠ some 45) → ∀ id ∈ q.entries, 0 ≤ id) := by
  obtain ⟨q, hnew, hmem, -, -⟩ := New_counter dir hlist
  refine ⟨q, hnew, hmem, ?_, ?_, ?_⟩
  · intro id hid
    obtain ⟨name, -, hk⟩ := (hmem id).1 hid
    exact Atoi_range hk
  · intro id hid hneg
    obtain ⟨name, hname, hk⟩ := (hmem id).1 hid
    refine ⟨name, hname, hk, ?_⟩
    by_contra hhead
    have := Atoi_nonneg hk hhead
    omega
  · intro hnames id hid
    obtain ⟨name, hname, hk⟩ := (hmem id).1 hid
    exact Atoi_nonneg hk (hnames name hname)

/-- C13, witness: over the directory with the entries named 7 and 3 every recovered
id is non-negative. -/
theorem signed_names_witness :
    (∀ name ∈ dirThreeSeven.names, name.head? ≠ some 45) ∧
    ∃ q : Queue, New (ascii "/tmp/q") dirThreeSeven = (.ok q, dirThreeSeven) ∧
      ∀ id ∈ q.entries, 0 ≤ id :=
  ⟨by decide,
   (signed_names (ascii "/tmp/q") dirThreeSeven rfl).imp
    (fun _ h => ⟨h.1, h.2.2.2.2 (by decide)⟩)⟩

/-- C14, counterexample. The payload `[255, 254]` is not valid UTF-8; after it is
enqueued, `DequeueString` returns it as a string, with no error. -/
theorem dequeue_string_counterexample :
    validUTF8 [255, 254] = false ∧
    (Enqueue ⟨ascii "/tmp/q", [], 0⟩ (emptyDir 64) [255, 254]).1 = none ∧
    (DequeueString (Enqueue ⟨ascii "/tmp/q", [], 0⟩ (emptyDir 64) [255, 254]).2.1
      (Enqueue ⟨ascii "/tmp/q", [], 0⟩ (emptyDir 64) [255, 254]).2.2).1 = .ok [255, 254] := by
  decide

/-- C14, amended. `DequeueString` returns no decoding error: it returns the error of
`Dequeue` when `Dequeue` fails, and otherwise the string holding exactly the dequeued
bytes, valid UTF-8 or not, with the same effect on the queue and the directory; and
`Dequeue` does not fail because of the payload's content: it succeeds whenever the
first pending entry's file is readable and the directory allows its removal. -/
theorem dequeue_string_total (q : Queue) (d : Dir) :
    (DequeueString q d).2 = (Dequeue q d).2 ∧
    (∀ err : Err, (DequeueString q d).1 = .error err ↔ (Dequeue q d).1 = .error err) ∧
    (∀ b : Bytes, (Dequeue q d).1 = .ok b → (DequeueString q d).1 = .ok (bytesToString b)) ∧
    (∀ b : Bytes, stringToBytes (bytesToString b) = b) ∧
    (∀ (id : Int) (rest : List Int) (f : File), q.entries = id :: rest →
      d.lookup (Itoa id) = some f → f.readable = true → d.writable = true →
      (Dequeue q d).1 = .ok f.data) := by
  refine ⟨?_, ?_, ?_, fun _ => rfl, ?_⟩
  · unfold DequeueString
    rcases Dequeue q d with ⟨_ | _, q1, d1⟩ <;> rfl
  · intro err
    unfold DequeueString
    rcases Dequeue q d with ⟨e | b, q1, d1⟩ <;> simp
  · intro b hb
    unfold DequeueString
    rcases hd : Dequeue q d with ⟨e | b', q1, d1⟩
    · rw [hd] at hb; simp at hb
    · rw [hd] at hb
      simp only [Except.ok.injEq] at hb
      subst hb
      rfl
  · intro id rest f he hlook hr hw
    rw [Dequeue_cons d he]
    simp [ReadFile, Remove, hlook, hr, hw]

/-- C14, witness: a readable file with bytes that are not valid UTF-8 is dequeued by
`Dequeue` and by `DequeueString`. -/
theorem dequeue_string_total_witness :
    (Dequeue ⟨ascii "/tmp/q", [1], 1⟩
      { listable := true, writable := true, free := 64,
        files := [(ascii "1", ⟨[255, 254], true, true⟩)] }).1 = .ok [255, 254] ∧
    (DequeueString ⟨ascii "/tmp/q", [1], 1⟩
      { listable := true, writable := true, free := 64,
        files := [(ascii "1", ⟨[255, 254], true, true⟩)] }).1 = .ok [255, 254] :=
  ⟨(dequeue_string_total ⟨ascii "/tmp/q", [1], 1⟩
      { listable := true, writable := true, free := 64,
        files := [(ascii "1", ⟨[255, 254], true, true⟩)] }).2.2.2.2 1 [] ⟨[255, 254], true, true⟩
      rfl (by decide) rfl rfl,
   (dequeue_string_total ⟨ascii "/tmp/q", [1], 1⟩
      { listable := true, writable := true, free := 64,
        files := [(ascii "1", ⟨[255, 254], true, true⟩)] }).2.2.1 [255, 254] (by decide)⟩

/-- C16, counterexample. Over a directory holding the files `7` and `07`, `New` returns
the pending list `[7, 7]`: it has a duplicate, and the two files correspond to the same
id. -/
theorem correspondence_counterexample :
    dirSevenTwice.names.Nodup ∧
    New (ascii "/tmp/q") dirSevenTwice = (.ok ⟨ascii "/tmp/q", [7, 7], 7⟩, dirSevenTwice) ∧
    ¬ (⟨ascii "/tmp/q", [7, 7], 7⟩ : Queue).entries.Nodup ∧
    Atoi (ascii "07") = some 7 ∧ Atoi (ascii "7") = some 7 := by
  decide

/-- C16, amended. For every listable directory, immediately after `New` the pending
list has as many elements as there are files whose name parses as an integer; and
when every such name is the decimal form that `strconv.Itoa` gives its integer (no
`+` sign, no leading zero), every id in the pending list corresponds to exactly one
existing file of the directory, the file named by the id, every file whose name parses
as an integer corresponds to exactly one id in the pending list, and the pending list
has no duplicates. -/
theorem correspondence_at_construction (dir : GoString) (d : Dir) (hlist : d.listable = true)
    (hnames : d.names.Nodup) :
    ∃ q : Queue, New dir d = (.ok q, d) ∧
      q.entries.length = (d.names.filter (fun name => (Atoi name).isSome)).length ∧
      ((∀ name ∈ d.names, ∀ k, Atoi name = some k → Itoa k = name) →
        q.entries.Nodup ∧
        (∀ id ∈ q.entries, (∃ f : File, d.lookup (Itoa id) = some f) ∧
          ∀ name ∈ d.names, Atoi name = some id → name = Itoa id) ∧
        (∀ name ∈ d.names, ∀ k, Atoi name = some k → q.entries.count k = 1)) := by
  obtain ⟨q, hnew, hmem, -, -⟩ := New_counter dir hlist
  have hq := hnew
  rw [New_listable dir hlist] at hq
  simp only [Prod.mk.injEq, Except.ok.injEq, and_true] at hq
  have hperm : q.entries.Perm (d.names.filterMap Atoi) := by
    rw [← hq]
    exact sortInts_perm _
  refine ⟨q, hnew, ?_, fun hcanon => ?_⟩
  · rw [hperm.length_eq, length_filterMap_eq]
  · have hnodup : q.entries.Nodup := by
      rw [hperm.nodup_iff]
      apply nodup_filterMap_of_injOn _ _ _ hnames
      intro a ha a' ha' k hk hk'
      rw [← hcanon a ha k hk, ← hcanon a' ha' k hk']
    refine ⟨hnodup, ?_, ?_⟩
    · intro id hid
      obtain ⟨name, hname, hk⟩ := (hmem id).1 hid
      have hname' : Itoa id ∈ d.names := by rw [hcanon name hname id hk]; exact hname
      constructor
      · cases hlook : d.lookup (Itoa id) with
        | none => exact absurd hname' ((lookup_eq_none_iff d _).1 hlook)
        | some f => exact ⟨f, rfl⟩
      · intro name' hname'' hk'
        exact (hcanon name' hname'' id hk').symm
    · intro name hname k hk
      exact List.count_eq_one_of_mem hnodup ((hmem k).2 ⟨name, hname, hk⟩)

/-- C16, witness: the directory with the entries named 7 and 3. -/
theorem correspondence_at_construction_witness :
    dirThreeSeven.names.Nodup ∧
    (∀ name ∈ dirThreeSeven.names, ∀ k, Atoi name = some k → Itoa k = name) ∧
    ∃ q : Queue, New (ascii "/tmp/q") dirThreeSeven = (.ok q, dirThreeSeven) ∧
      q.entries.length = 2 ∧ q.entries.Nodup :=
  have hcanon : ∀ name ∈ dirThreeSeven.names, ∀ k, Atoi name = some k → Itoa k = name := by
    intro name hname k hk
    have hcases : name = ascii "7" ∨ name = ascii "3" := by
      simpa [dirThreeSeven, Dir.names] using hname
    rcases hcases with rfl | rfl
    · rw [show Atoi (ascii "7") = some 7 from by decide] at hk
      cases hk
      decide
    · rw [show Atoi (ascii "3") = some 3 from by decide] at hk
      cases hk
      decide
  ⟨by decide, hcanon,
   (correspondence_at_construction (ascii "/tmp/q") dirThreeSeven rfl (by decide)).imp
    (fun _ h => ⟨h.1, h.2.1.trans (by decide), (h.2.2 hcanon).1⟩)⟩

/-- C17, counterexample. Over a directory holding an entry named by the largest `int`,
`New` followed by one successful `Enqueue` reaches a state whose pending list is
`[9223372036854775807, -9223372036854775808]`: it is not sorted, and its first
element is greater than the counter. -/
theorem sortedness_counterexample :
    New (ascii "/tmp/q") dirMaxInt
      = (.ok ⟨ascii "/tmp/q", [9223372036854775807], 9223372036854775807⟩, dirMaxInt) ∧
    (run [.enqueue (ascii "new")] ⟨ascii "/tmp/q", [9223372036854775807], 9223372036854775807⟩
        dirMaxInt).1
      = ⟨ascii "/tmp/q", [9223372036854775807, -9223372036854775808], -9223372036854775808⟩ ∧
    ¬ (run [.enqueue (ascii "new")] ⟨ascii "/tmp/q", [9223372036854775807], 9223372036854775807⟩
        dirMaxInt).1.entries.Sorted (· ≤ ·) ∧
    ¬ (∀ id ∈ (run [.enqueue (ascii "new")]
          ⟨ascii "/tmp/q", [9223372036854775807], 9223372036854775807⟩ dirMaxInt).1.entries,
        id ≤ (run [.enqueue (ascii "new")]
          ⟨ascii "/tmp/q", [9223372036854775807], 9223372036854775807⟩ dirMaxInt).1.current) := by
  decide

/-- C17, amended. In every state reached from `New` by a sequence of `Enqueue` and
`Dequeue` calls, successful or failing, that keeps the counter in the range of `int`
(the recovered counter plus the number of `Enqueue` calls is at most
9223372036854775807), the pending id list is sorted in ascending order and every
element is at most the counter, so the first pending id, the one `Dequeue` takes, is
the smallest. -/
theorem sortedness_invariant (dir : GoString) (d : Dir) (q0 : Queue) (calls : List Call)
    (hl : d.listable = true) (hnew : New dir d = (.ok q0, d))
    (hbound : q0.current + enqueueCount calls ≤ maxInt) :
    (run calls q0 d).1.entries.Sorted (· ≤ ·) ∧
    (∀ id ∈ (run calls q0 d).1.entries, id ≤ (run calls q0 d).1.current) ∧
    (∀ (first : Int) (rest : List Int), (run calls q0 d).1.entries = first :: rest →
      ∀ id ∈ (run calls q0 d).1.entries, first ≤ id) := by
  obtain ⟨hs, hb, hlo⟩ := New_sorted hl hnew
  obtain ⟨h1, h2⟩ := @sorted_run calls q0 d hs hb hlo hbound
  refine ⟨h1, h2, ?_⟩
  intro first rest he id hid
  rw [he] at h1 hid
  rcases List.mem_cons.1 hid with h | h
  · rw [h]
  · exact List.rel_of_sorted_cons h1 id h

/-- C17, witness: over the directory with the entries named 7 and 3, after an
`Enqueue`, a `Dequeue` and another `Enqueue` the pending list is `[7, 8, 9]`. -/
theorem sortedness_invariant_witness :
    New (ascii "/tmp/q") dirThreeSeven = (.ok ⟨ascii "/tmp/q", [3, 7], 7⟩, dirThreeSeven) ∧
    (run [.enqueue (ascii "h"), .dequeue, .enqueue (ascii "i")] ⟨ascii "/tmp/q", [3, 7], 7⟩
      dirThreeSeven).1.entries = [7, 8, 9] ∧
    (run [.enqueue (ascii "h"), .dequeue, .enqueue (ascii "i")] ⟨ascii "/tmp/q", [3, 7], 7⟩
      dirThreeSeven).1.entries.Sorted (· ≤ ·) :=
  ⟨by decide, by decide,
   (sortedness_invariant (ascii "/tmp/q") dirThreeSeven ⟨ascii "/tmp/q", [3, 7], 7⟩
      [.enqueue (ascii "h"), .dequeue, .enqueue (ascii "i")] rfl (by decide) (by decide)).1⟩

/-- C18, counterexample. Over a directory holding an entry named by the largest `int`,
`New` recovers the counter 9223372036854775807 and the first `Enqueue` takes it to
-9223372036854775808: the counter has decreased. -/
theorem counter_monotone_counterexample :
    New (ascii "/tmp/q") dirMaxInt
      = (.ok ⟨ascii "/tmp/q", [9223372036854775807], 9223372036854775807⟩, dirMaxInt) ∧
    (Enqueue ⟨ascii "/tmp/q", [9223372036854775807], 9223372036854775807⟩ dirMaxInt
      (ascii "new")).2.1.current = -9223372036854775808 ∧
    (Enqueue ⟨ascii "/tmp/q", [9223372036854775807], 9223372036854775807⟩ dirMaxInt
      (ascii "new")).2.1.current
      < (⟨ascii "/tmp/q", [9223372036854775807], 9223372036854775807⟩ : Queue).current := by
  decide

/-- C18, amended. Over any sequence of operations on one instance that keeps the
counter in the range of `int` (the counter plus the number of `Enqueue` calls is at
most 9223372036854775807), the counter never decreases: every `Enqueue` call,
successful or failing, increases it by exactly 1 and every `Dequeue` call leaves it
unchanged, so after the sequence it is the old counter plus the number of `Enqueue`
calls; the ids assigned by the instance are strictly increasing, hence pairwise
distinct, and greater than the counter at the start, so none is used twice. -/
theorem counter_monotone (q : Queue) (d : Dir) (calls : List Call) (b : Bytes)
    (hlo : minInt ≤ q.current) (hhi : q.current + enqueueCount calls ≤ maxInt) :
    (run calls q d).1.current = q.current + enqueueCount calls ∧
    q.current ≤ (run calls q d).1.current ∧
    (q.current < maxInt → (Enqueue q d b).2.1.current = q.current + 1) ∧
    (Dequeue q d).2.1.current = q.current ∧
    (assignedIds calls q d).Pairwise (· < ·) ∧
    (assignedIds calls q d).Nodup ∧
    (∀ id ∈ assignedIds calls q d, q.current < id) := by
  have hrun := @run_current calls q d hlo hhi
  obtain ⟨hp, hgt⟩ := @assignedIds_increasing calls q d hlo hhi
  refine ⟨hrun, ?_, ?_, Dequeue_current q d, hp, hp.imp (fun h => ne_of_lt h), hgt⟩
  · rw [hrun]
    have : (0 : Int) ≤ enqueueCount calls := Int.ofNat_nonneg _
    omega
  · intro hlt
    rw [Enqueue_current, wrapInt_of_range (by omega) (by omega)]

/-- C18, witness: with 3 bytes left on the file system, an `Enqueue` that fails, a
`Dequeue` and an `Enqueue` that succeeds take the counter from 0 to 2 and assign the
id 2 only. -/
theorem counter_monotone_witness :
    (run [.enqueue (ascii "entry 1"), .dequeue, .enqueue []] ⟨ascii "/tmp/q", [], 0⟩
      (emptyDir 3)).1.current = 2 ∧
    assignedIds [.enqueue (ascii "entry 1"), .dequeue, .enqueue []] ⟨ascii "/tmp/q", [], 0⟩
      (emptyDir 3) = [2] ∧
    (Enqueue ⟨ascii "/tmp/q", [], 0⟩ (emptyDir 3) (ascii "entry 1")).2.1.current = 1 :=
  ⟨(counter_monotone ⟨ascii "/tmp/q", [], 0⟩ (emptyDir 3)
      [.enqueue (ascii "entry 1"), .dequeue, .enqueue []] (ascii "entry 1")
      (by decide) (by decide)).1.trans (by decide),
   by decide,
   ((counter_monotone ⟨ascii "/tmp/q", [], 0⟩ (emptyDir 3)
      [.enqueue (ascii "entry 1"), .dequeue, .enqueue []] (ascii "entry 1")
      (by decide) (by decide)).2.2.1 (by decide)).trans (by decide)⟩

/-- C19, counterexample. Over a directory holding the entries named by the smallest
and by the largest `int`, `New` recovers both ids and the counter 9223372036854775807;
the first `Enqueue` writes under -9223372036854775808, the name of the first pending
entry, whose contents are replaced: the next `Dequeue` returns the new payload. -/
theorem never_overwrites_counterexample :
    New (ascii "/tmp/q") dirMinMax
      = (.ok ⟨ascii "/tmp/q", [-9223372036854775808, 9223372036854775807],
          9223372036854775807⟩, dirMinMax) ∧
    Itoa (wrapInt (9223372036854775807 + 1)) = ascii "-9223372036854775808" ∧
    dirMinMax.lookup (ascii "-9223372036854775808") = some ⟨ascii "first", true, true⟩ ∧
    (Enqueue ⟨ascii "/tmp/q", [-9223372036854775808, 9223372036854775807], 9223372036854775807⟩
      dirMinMax (ascii "new")).1 = none ∧
    (Enqueue ⟨ascii "/tmp/q", [-9223372036854775808, 9223372036854775807], 9223372036854775807⟩
      dirMinMax (ascii "new")).2.2.lookup (ascii "-9223372036854775808")
      = some ⟨ascii "new", true, true⟩ ∧
    (Dequeue
      (Enqueue ⟨ascii "/tmp/q", [-9223372036854775808, 9223372036854775807],
        9223372036854775807⟩ dirMinMax (ascii "new")).2.1
      (Enqueue ⟨ascii "/tmp/q", [-9223372036854775808, 9223372036854775807],
        9223372036854775807⟩ dirMinMax (ascii "new")).2.2).1 = .ok (ascii "new") := by
  decide

/-- C19, amended. For every listable directory and every state reached from `New` by
`Enqueue` and `Dequeue` calls that keep the counter below the largest `int` (the
recovered counter plus the number of `Enqueue` calls is less than
9223372036854775807), with the directory modified only by this instance, the file
name that the next `Enqueue` writes, the decimal form of counter + 1, names no file
existing in the directory before the write, so every file of the directory, stored
entry or not, is still there with its contents after the `Enqueue`. -/
theorem enqueue_never_overwrites (dir : GoString) (d : Dir) (q0 : Queue) (calls : List Call)
    (b : Bytes) (hl : d.listable = true) (hnew : New dir d = (.ok q0, d))
    (hbound : q0.current + enqueueCount calls < maxInt) :
    wrapInt ((run calls q0 d).1.current + 1) = (run calls q0 d).1.current + 1 ∧
    (run calls q0 d).2.lookup (Itoa ((run calls q0 d).1.current + 1)) = none ∧
    (∀ (name : GoString) (f : File), (run calls q0 d).2.lookup name = some f →
      (Enqueue (run calls q0 d).1 (run calls q0 d).2 b).2.2.lookup name = some f) := by
  obtain ⟨hc, hlo, -⟩ := covers_new hnew hl
  obtain ⟨h1, h2, h3⟩ := covers_run hc hlo (le_of_lt hbound)
  have hfresh := covers_fresh h1 h2 (by rw [h3]; exact hbound)
  have hw : wrapInt ((run calls q0 d).1.current + 1) = (run calls q0 d).1.current + 1 :=
    wrapInt_of_range (by omega) (by rw [h3]; omega)
  refine ⟨hw, by rw [← hw]; exact hfresh, ?_⟩
  intro name f hf
  rw [Enqueue_lookup_ne _ _ _ _ ?_, hf]
  rintro rfl
  rw [hfresh] at hf
  simp at hf

/-- C19, witness: over the directory with the entries named 7 and 3, after an
`Enqueue` and a `Dequeue` the next `Enqueue` writes the file `9`, which does not
exist, and leaves the file `7`. -/
theorem enqueue_never_overwrites_witness :
    New (ascii "/tmp/q") dirThreeSeven = (.ok ⟨ascii "/tmp/q", [3, 7], 7⟩, dirThreeSeven) ∧
    (run [.enqueue (ascii "h"), .dequeue] ⟨ascii "/tmp/q", [3, 7], 7⟩ dirThreeSeven).2.lookup
      (Itoa 9) = none ∧
    (Enqueue (run [.enqueue (ascii "h"), .dequeue] ⟨ascii "/tmp/q", [3, 7], 7⟩ dirThreeSeven).1
      (run [.enqueue (ascii "h"), .dequeue] ⟨ascii "/tmp/q", [3, 7], 7⟩ dirThreeSeven).2
      (ascii "i")).2.2.lookup (ascii "7") = some ⟨ascii "g", true, true⟩ :=
  ⟨by decide,
   (enqueue_never_overwrites (ascii "/tmp/q") dirThreeSeven ⟨ascii "/tmp/q", [3, 7], 7⟩
      [.enqueue (ascii "h"), .dequeue] (ascii "i") rfl (by decide) (by decide)).2.1,
   (enqueue_never_overwrites (ascii "/tmp/q") dirThreeSeven ⟨ascii "/tmp/q", [3, 7], 7⟩
      [.enqueue (ascii "h"), .dequeue] (ascii "i") rfl (by decide) (by decide)).2.2
      (ascii "7") ⟨ascii "g", true, true⟩ (by decide)⟩

/-- C20. Refinement of an abstract FIFO queue: for a queue opened over an empty
directory and any interleaved sequence of `Enqueue` and `Dequeue` calls whose file
operations succeed (fewer than `2^63 - 1` calls of `Enqueue`), the state reached
stands for the abstract list of payloads that the abstract operations give for the
same calls, that list being the contents of the files named by the pending ids, in
list order; from that state a successful `Enqueue(p)` appends `p` to the abstract
list, `Dequeue` returns and removes its head, and `Dequeue` returns `ErrEmpty` exactly
when the abstract list is empty; the payloads enqueued so far are the payloads
dequeued so far followed by the abstract list, so the dequeued payloads are a prefix of
the enqueued ones. -/
theorem fifo_refinement (dir : GoString) (d : Dir) (calls : List Call) (q1 : Queue) (d1 : Dir)
    (hlist : d.listable = true) (hempty : d.files = [])
    (hcount : enqueueCount calls + 1 < 2 ^ 63)
    (hsucc : succeeds calls ⟨dir, [], 0⟩ d = true)
    (hrun : run calls ⟨dir, [], 0⟩ d = (q1, d1)) :
    New dir d = (.ok ⟨dir, [], 0⟩, d) ∧
    abstraction q1 d1 = abstractRun calls [] ∧
    (∀ p : Bytes, (Enqueue q1 d1 p).1 = none →
      abstraction (Enqueue q1 d1 p).2.1 (Enqueue q1 d1 p).2.2
        = abstractEnqueue (abstraction q1 d1) p) ∧
    (Dequeue q1 d1).1 = (abstractDequeue (abstraction q1 d1)).1 ∧
    abstraction (Dequeue q1 d1).2.1 (Dequeue q1 d1).2.2 = (abstractDequeue (abstraction q1 d1)).2 ∧
    ((Dequeue q1 d1).1 = .error .ErrEmpty ↔ abstraction q1 d1 = []) ∧
    enqueuedPayloads calls ⟨dir, [], 0⟩ d
      = dequeuedPayloads calls ⟨dir, [], 0⟩ d ++ abstraction q1 d1 ∧
    dequeuedPayloads calls ⟨dir, [], 0⟩ d <+: enqueuedPayloads calls ⟨dir, [], 0⟩ d := by
  have h0 := synced_empty dir hempty
  have hc : (0 : Int) + enqueueCount calls < maxInt := by
    unfold maxInt
    have : ((enqueueCount calls + 1 : Nat) : Int) < 2 ^ 63 := by exact_mod_cast hcount
    push_cast at this
    omega
  obtain ⟨hs, hcur, hpay, htrace⟩ := synced_simulation h0 (le_of_lt hc) hsucc
  rw [hrun] at hs hcur hpay htrace
  simp only at hs hcur hpay htrace
  have hcur1 : q1.current < maxInt := by rw [hcur]; exact hc
  have habs : abstraction q1 d1 = d1.payloads := synced_abstraction hs (le_of_lt hcur1)
  have hd0 : d.payloads = [] := by simp [Dir.payloads, hempty]
  rw [hd0] at hpay htrace
  obtain ⟨hres, hpay'⟩ := synced_dequeue_abstract hs (le_of_lt hcur1)
  obtain ⟨hsd, hcd, -, -⟩ := hs.step_dequeue (le_of_lt hcur1)
  have htr : enqueuedPayloads calls ⟨dir, [], 0⟩ d
      = dequeuedPayloads calls ⟨dir, [], 0⟩ d ++ abstraction q1 d1 := by
    rw [habs, ← htrace, List.nil_append]
  refine ⟨New_empty dir hlist hempty, by rw [habs, hpay], ?_, by rw [habs]; exact hres, ?_, ?_,
    htr, ?_⟩
  · intro p hok
    obtain ⟨hse, hpe, -, hce, -⟩ := hs.enqueue_ok hcur1 hok
    rw [synced_abstraction hse (by rw [hce]; omega), hpe, habs]
    rfl
  · rw [synced_abstraction hsd (by rw [hcd]; exact le_of_lt hcur1), hpay', habs]
  · rw [hres, habs]
    cases d1.payloads with
    | nil => simp [abstractDequeue]
    | cons p rest => simp [abstractDequeue]
  · rw [htr]
    exact List.prefix_append _ _

/-- C20, witness: over an empty directory, two entries are enqueued, one is dequeued
and a third is enqueued; the state stands for the list of the second and the third
payload, and the first payload is the one dequeued. -/
theorem fifo_refinement_witness :
    succeeds [.enqueue (ascii "entry 1"), .enqueue (ascii "entry 2"), .dequeue,
      .enqueue (ascii "entry 3")] ⟨ascii "/tmp/q", [], 0⟩ (emptyDir 4096) = true ∧
    abstraction
      (run [.enqueue (ascii "entry 1"), .enqueue (ascii "entry 2"), .dequeue,
        .enqueue (ascii "entry 3")] ⟨ascii "/tmp/q", [], 0⟩ (emptyDir 4096)).1
      (run [.enqueue (ascii "entry 1"), .enqueue (ascii "entry 2"), .dequeue,
        .enqueue (ascii "entry 3")] ⟨ascii "/tmp/q", [], 0⟩ (emptyDir 4096)).2
      = [ascii "entry 2", ascii "entry 3"] ∧
    dequeuedPayloads [.enqueue (ascii "entry 1"), .enqueue (ascii "entry 2"), .dequeue,
      .enqueue (ascii "entry 3")] ⟨ascii "/tmp/q", [], 0⟩ (emptyDir 4096)
      <+: enqueuedPayloads [.enqueue (ascii "entry 1"), .enqueue (ascii "entry 2"), .dequeue,
      .enqueue (ascii "entry 3")] ⟨ascii "/tmp/q", [], 0⟩ (emptyDir 4096) :=
  ⟨by decide,
   (fifo_refinement (ascii "/tmp/q") (emptyDir 4096)
      [.enqueue (ascii "entry 1"), .enqueue (ascii "entry 2"), .dequeue, .enqueue (ascii "entry 3")]
      _ _ rfl rfl (by decide) (by decide) rfl).2.1.trans (by decide),
   (fifo_refinement (ascii "/tmp/q") (emptyDir 4096)
      [.enqueue (ascii "entry 1"), .enqueue (ascii "entry 2"), .dequeue, .enqueue (ascii "entry 3")]
      _ _ rfl rfl (by decide) (by decide) rfl).2.2.2.2.2.2.2⟩

end PQueue
